import Mathlib

/-!
Verification development for pycargoebuild's ebuild generation and update
logic.  Text artifacts (ebuilds) are represented by their list of lines;
byte streams are lists of naturals; machine strings are Lean `String`s
(a structure wrapping `List Char`, so all operations reduce).

Definitions are translated from `pycargoebuild/ebuild.py` where that file
contains the relevant code.  The repository's test suite
(`test/test_ebuild.py`) imports `update_ebuild` and a keyword-argument
variant of `get_ebuild` that are not present in the provided
`ebuild.py`; those operations are modelled from the specification and
each such definition is marked `Modelled from the spec:`.
-/

/-! ## Character and string helpers -/

/-- Boolean test that the first list of characters is a prefix of the second. -/
def isPfx : List Char → List Char → Bool
  | [], _ => true
  | _ :: _, [] => false
  | a :: as, b :: bs => if a = b then isPfx as bs else false

/-- Boolean test that `p` is a prefix of the string `l`. -/
def strStarts (l p : String) : Bool := isPfx p.data l.data

/-- Prepend a tab character to a string (used for region interior lines). -/
def tabLine (s : String) : String := ⟨'\t' :: s.data⟩

/-- Lower-case a single ASCII character. -/
def lowerChar (c : Char) : Char :=
  if 'A' ≤ c ∧ c ≤ 'Z' then Char.ofNat (c.toNat + 32) else c

/-- Lower-case a string, character by character (ASCII). -/
def lowerStr (s : String) : String := ⟨s.data.map lowerChar⟩

/-- Boolean lexicographic order on character lists (by code point). -/
def chLe : List Char → List Char → Bool
  | [], _ => true
  | _ :: _, [] => false
  | a :: as, b :: bs =>
    if a.toNat < b.toNat then true
    else if b.toNat < a.toNat then false
    else chLe as bs

/-- Boolean lexicographic order on strings (by code point). -/
def strLe (a b : String) : Bool := chLe a.data b.data

/-- The propositional form of `strLe`, used as the sorting relation. -/
def strLeR (a b : String) : Prop := strLe a b = true

instance : DecidableRel strLeR := fun a b => decEq (strLe a b) true

/-- Sort a list of strings into the canonical (code-point lexicographic) order. -/
def sortStrings (l : List String) : List String := List.insertionSort strLeR l

/-! ## License expressions

The `license_expression` library used by `ebuild.py` is external to the
repository; its parse/render/simplify contracts are modelled from the
specification (section 4.1 and 4.2). -/

/-- License expression tree: symbols combined with binary OR/AND operators. -/
inductive LicExpr where
  | atom (s : String)
  | and (a b : LicExpr)
  | or (a b : LicExpr)
deriving DecidableEq

/-- Tokens of a license expression: parentheses and words. -/
inductive LicTok where
  | lparen
  | rparen
  | word (s : String)
deriving DecidableEq

/-- Flush the accumulated word characters as a token, if any. -/
def flushWord (acc : List Char) (rest : List LicTok) : List LicTok :=
  if acc = [] then rest else .word ⟨acc⟩ :: rest

/-- Modelled from the spec: tokenizer for license expressions (spaces
separate tokens, parentheses are stand-alone tokens, any other maximal
character run is a word). -/
def tokChars (acc : List Char) : List Char → List LicTok
  | [] => flushWord acc []
  | c :: r =>
    if c = ' ' then flushWord acc (tokChars [] r)
    else if c = '(' then flushWord acc (.lparen :: tokChars [] r)
    else if c = ')' then flushWord acc (.rparen :: tokChars [] r)
    else tokChars (acc ++ [c]) r

/-- Tokenize a license expression string. -/
def licTokens (s : String) : List LicTok := tokChars [] s.data

mutual

/-- Modelled from the spec: recursive-descent primary production of the
license-expression grammar (a word atom, or a parenthesized expression),
with explicit fuel.  `parseOrL` is the entry production; `OR` binds
weaker than `AND`. -/
def parsePrim : Nat → List LicTok → Option (LicExpr × List LicTok)
  | 0, _ => none
  | _ + 1, .word s :: r => some (.atom s, r)
  | f + 1, .lparen :: r =>
    match parseOrL f r with
    | some (e, .rparen :: r2) => some (e, r2)
    | _ => none
  | _ + 1, _ => none

/-- Modelled from the spec: `AND`-chain production. -/
def parseAndL : Nat → List LicTok → Option (LicExpr × List LicTok)
  | 0, _ => none
  | f + 1, ts =>
    match parsePrim f ts with
    | some (e, r) => parseAndT f e r
    | none => none

/-- Modelled from the spec: tail of an `AND`-chain, folding operands left. -/
def parseAndT : Nat → LicExpr → List LicTok → Option (LicExpr × List LicTok)
  | 0, _, _ => none
  | f + 1, e, .word s :: r =>
    if s = "AND" then
      match parsePrim f r with
      | some (e2, r2) => parseAndT f (.and e e2) r2
      | none => none
    else some (e, .word s :: r)
  | _ + 1, e, r => some (e, r)

/-- Modelled from the spec: `OR`-chain production. -/
def parseOrL : Nat → List LicTok → Option (LicExpr × List LicTok)
  | 0, _ => none
  | f + 1, ts =>
    match parseAndL f ts with
    | some (e, r) => parseOrT f e r
    | none => none

/-- Modelled from the spec: tail of an `OR`-chain, folding operands left. -/
def parseOrT : Nat → LicExpr → List LicTok → Option (LicExpr × List LicTok)
  | 0, _, _ => none
  | f + 1, e, .word s :: r =>
    if s = "OR" then
      match parseAndL f r with
      | some (e2, r2) => parseOrT f (.or e e2) r2
      | none => none
    else some (e, .word s :: r)
  | _ + 1, e, r => some (e, r)

end

/-- Modelled from the spec: parse a license expression string; fails on
malformed syntax (`LicenseSyntaxError`).  The fuel bound is large enough
for any input of the given token count. -/
def parseLicense (s : String) : Option LicExpr :=
  match parseOrL (4 * (licTokens s).length + 4) (licTokens s) with
  | some (e, []) => some e
  | _ => none

mutual

/-- Modelled from the spec: render an expression operand as it appears
inside an `OR` group: atoms bare, nested chains flattened, nested `AND`
groups parenthesized. -/
def renderOr : LicExpr → String
  | .atom s => s
  | .or a b => renderOr a ++ " " ++ renderOr b
  | .and a b => "( " ++ renderAnd a ++ " " ++ renderAnd b ++ " )"

/-- Modelled from the spec: render an expression in the distro dialect:
a single atom as itself, an `OR`-chain as `|| ( a1 ... aN )`, an
`AND`-chain space-joined. -/
def renderAnd : LicExpr → String
  | .atom s => s
  | .and a b => renderAnd a ++ " " ++ renderAnd b
  | .or a b => "|| ( " ++ renderOr a ++ " " ++ renderOr b ++ " )"

end

/-- Split an expression into the list of its top-level `AND` operands
(flattening nested `AND` chains, per the simplification contract). -/
def andFlatten : LicExpr → List LicExpr
  | .and a b => andFlatten a ++ andFlatten b
  | e => [e]

/-- All atom symbols occurring in an expression. -/
def exprWords : LicExpr → List String
  | .atom s => [s]
  | .and a b => exprWords a ++ exprWords b
  | .or a b => exprWords a ++ exprWords b

/-- Soundness statement for the primary production: parsed atoms are
word tokens of the input and the remainder is drawn from the input. -/
def SoundP (f : Nat) : Prop :=
  ∀ ts e r, parsePrim f ts = some (e, r) →
    (∀ s ∈ exprWords e, LicTok.word s ∈ ts) ∧ (∀ t ∈ r, t ∈ ts)

/-- Soundness statement for `parseAndL`. -/
def SoundA (f : Nat) : Prop :=
  ∀ ts e r, parseAndL f ts = some (e, r) →
    (∀ s ∈ exprWords e, LicTok.word s ∈ ts) ∧ (∀ t ∈ r, t ∈ ts)

/-- Soundness statement for `parseAndT` relative to its accumulator. -/
def SoundAT (f : Nat) : Prop :=
  ∀ e0 ts e r, parseAndT f e0 ts = some (e, r) →
    (∀ s ∈ exprWords e, s ∈ exprWords e0 ∨ LicTok.word s ∈ ts) ∧ (∀ t ∈ r, t ∈ ts)

/-- Soundness statement for `parseOrL`. -/
def SoundO (f : Nat) : Prop :=
  ∀ ts e r, parseOrL f ts = some (e, r) →
    (∀ s ∈ exprWords e, LicTok.word s ∈ ts) ∧ (∀ t ∈ r, t ∈ ts)

/-- Soundness statement for `parseOrT` relative to its accumulator. -/
def SoundOT (f : Nat) : Prop :=
  ∀ e0 ts e r, parseOrT f e0 ts = some (e, r) →
    (∀ s ∈ exprWords e, s ∈ exprWords e0 ∨ LicTok.word s ∈ ts) ∧ (∀ t ∈ r, t ∈ ts)

/-- Convert deprecated Cargo license string to SPDX-2.0: replace every
`/` separator with the `OR` operator (from `ebuild.py`, `cargo_to_spdx`;
the pattern is the single character `/`, so Python's `str.replace` is
exactly this character-wise substitution). -/
def cargoToSpdxChars : List Char → List Char
  | [] => []
  | c :: rest =>
    if c = '/' then ' ' :: 'O' :: 'R' :: ' ' :: cargoToSpdxChars rest
    else c :: cargoToSpdxChars rest

/-- Convert deprecated Cargo license string to SPDX-2.0, if necessary
(from `ebuild.py`, `cargo_to_spdx`). -/
def cargo_to_spdx (s : String) : String := ⟨cargoToSpdxChars s.data⟩

/-- Modelled from the spec: the canonicalization stage of the License
Aggregator (section 4.2): exclude dependency licenses textually
identical to the primary license string, deduplicate, and fix a
canonical set order. -/
def canonLicenseSet (primary : Option String) (lics : List String) : List String :=
  match primary with
  | some p => sortStrings ((lics.filter fun s => decide (s ≠ p)).dedup)
  | none => sortStrings lics.dedup

/-- Modelled from the spec: the remainder of the License Aggregator
pipeline after canonicalization: parse each license, flatten the
combined `AND`, deduplicate and sort the rendered top-level operands. -/
def renderAddendumLines (primary : Option String) (lics : List String) : Option (List String) :=
  match (canonLicenseSet primary lics).mapM parseLicense with
  | none => none
  | some es => some (sortStrings ((es.map (fun e => (andFlatten e).map renderAnd)).flatten).dedup)

/-! ## Data model (spec section 3) -/

/-- Modelled from the spec: a registry-sourced dependency reference. -/
structure FileCrate where
  name : String
  version : String
  checksum : String
deriving DecidableEq

/-- Modelled from the spec: a source-control-sourced dependency reference. -/
structure GitCrate where
  name : String
  version : String
  repository : String
  commit : String
deriving DecidableEq

/-- Modelled from the spec: a dependency reference, polymorphic over
the registry/git variants. -/
inductive Crate where
  | file (c : FileCrate)
  | git (g : GitCrate)
deriving DecidableEq

/-- The non-git dependencies of a dependency list. -/
def fileCrates (deps : List Crate) : List FileCrate :=
  deps.filterMap fun c =>
    match c with
    | .file c => some c
    | .git _ => none

/-- Modelled from the spec: the primary package's declared identity. -/
structure PackageMetadata where
  name : String
  version : String
  license : Option String
  description : Option String
  homepage : Option String
deriving DecidableEq

/-! ## Recipe patcher (spec section 4.3)

The patcher operates on the artifact text represented as its list of
lines.  `update_ebuild` itself is absent from the provided `ebuild.py`
(only the test suite references it), so the patcher is modelled from the
specification. -/

/-- The line opening the dependency-list region (`CRATES="` possibly
with the closing quote and content on the same line). -/
def isCratesMarker (l : String) : Bool := strStarts l "CRATES=\""

/-- The line opening the dependent-license append block. -/
def isLicOpener (l : String) : Bool := strStarts l "LICENSE+=\""

/-- The fixed marker comment line that identifies the dependent-license
region. -/
def commentLine : String := "# Dependent crate licenses"

/-- Contribution of one adjacent line pair to the dependent-license
region count: one when a marker comment line is immediately followed by
an append opener. -/
def pairBit (a b : String) : Nat :=
  if a = commentLine ∧ isLicOpener b = true then 1 else 0

/-- Number of dependent-license regions in a text: occurrences of the
marker comment line immediately followed by an append opener. -/
def countPairs : List String → Nat
  | a :: b :: rest => pairBit a b + countPairs (b :: rest)
  | _ => 0

/-- Split a list of lines at the first line satisfying `p`:
returns the lines before it, the line itself, and the lines after. -/
def splitMarker (p : String → Bool) : List String → Option (List String × String × List String)
  | [] => none
  | l :: rest =>
    if p l then some ([], l, rest)
    else (splitMarker p rest).map fun x => (l :: x.1, x.2.1, x.2.2)

/-- Split a list of lines at the first dependent-license region pair:
returns the lines up to and including the marker comment line, the
append opener line, and the lines after it. -/
def splitPair : List String → Option (List String × String × List String)
  | a :: b :: rest =>
    if a = commentLine ∧ isLicOpener b = true then some ([a], b, rest)
    else (splitPair (b :: rest)).map fun x => (a :: x.1, x.2.1, x.2.2)
  | _ => none

/-- One rendered dependency line: a tab, the name, `@`, the version. -/
def crateLine (c : FileCrate) : String := tabLine (c.name ++ "@" ++ c.version)

/-- A boolean order on crates: by name, then by version. -/
def crateLe (a b : FileCrate) : Prop :=
  (strLe a.name b.name && (!(a.name = b.name : Bool) || strLe a.version b.version)) = true

instance : DecidableRel crateLe := fun _ _ => decEq _ true

/-- Sort the dependency list by (name, version). -/
def sortCrates (l : List FileCrate) : List FileCrate := List.insertionSort crateLe l

/-- Modelled from the spec: the replacement dependency-list region
(spec section 4.3 step 2): one line per non-git dependency, sorted by
(name, version), each `"\t" + name + "@" + version`; when the list is
empty the whole region collapses to an empty-quoted single line. -/
def renderCratesLines (deps : List Crate) : List String :=
  match sortCrates (fileCrates deps) with
  | [] => ["CRATES=\"\""]
  | c :: fc => "CRATES=\"" :: (c :: fc).map crateLine ++ ["\""]

/-- Modelled from the spec: the replacement dependent-license block:
empty rendering collapses to an empty-quoted append line, otherwise the
operand lines are rendered one per line (tab-indented) in the vertical
form. -/
def licenseBlock (addLines : List String) : List String :=
  match addLines with
  | [] => ["LICENSE+=\"\""]
  | a :: rest => "LICENSE+=\"" :: (a :: rest).map tabLine ++ ["\""]

/-- Modelled from the spec: locate the dependency-list region (which
must occur exactly once) and replace it with the canonical rendering
(spec section 4.3 steps 1-2). -/
def cratesPass (lines : List String) (deps : List Crate) : Except String (List String) :=
  if lines.countP isCratesMarker = 1 then
    match splitMarker isCratesMarker lines with
    | some (pre, m, rest) =>
      if m = "CRATES=\"" then
        match splitMarker (fun l => decide (l = "\"")) rest with
        | some (_, _, suf) => .ok (pre ++ renderCratesLines deps ++ suf)
        | none => .error "unterminated CRATES block in ebuild"
      else .ok (pre ++ renderCratesLines deps ++ rest)
    | none => .error "CRATES block not found in ebuild"
  else .error "CRATES block must occur exactly once in ebuild"

/-- Modelled from the spec: locate the dependent-license region (the
marker comment immediately followed by an append opener) and replace the
append block with the canonical rendering, keeping the comment line
(spec section 4.3 step 3).  A block swallowing the dependency-list
marker is malformed. -/
def licPass (lines : List String) (addLines : List String) : Except String (List String) :=
  match splitPair lines with
  | some (pre, opener, rest) =>
    if opener = "LICENSE+=\"" then
      match splitMarker (fun l => decide (l = "\"")) rest with
      | some (interior, _, suf) =>
        if interior.any isCratesMarker then .error "malformed crate license block in ebuild"
        else .ok (pre ++ licenseBlock addLines ++ suf)
      | none => .error "unterminated crate license block in ebuild"
    else .ok (pre ++ licenseBlock addLines ++ rest)
  | none => .error "crate license block not found in ebuild"

/-- The git-variant dependencies of a dependency list. -/
def gitCrates (deps : List Crate) : List GitCrate :=
  deps.filterMap fun c =>
    match c with
    | .file _ => none
    | .git g => some g

/-- The opening line of the git-crate-mapping block. -/
def gitOpenLine : String := "declare -A GIT_CRATES=("

/-- The closing line of the git-crate-mapping block. -/
def gitCloseLine : String := ")"

/-- The fixed anchor line (the build-system inheritance directive)
before which a newly inserted git-crate-mapping block is placed. -/
def anchorLine : String := "inherit cargo"

/-- Whether a line opens the git-crate-mapping block. -/
def isGitOpen (l : String) : Bool := decide (l = gitOpenLine)

/-- The last `/`-separated segment of a repository URL, used as the
archive name inside a git-crate-mapping entry. -/
def lastSeg (cs : List Char) : List Char :=
  cs.foldl (fun acc c => if c = '/' then [] else acc ++ [c]) []

/-- Modelled from the spec: one git-crate-mapping entry line, keyed by
the dependency name with a `repo;commit;archive-name-%commit%` value. -/
def gitEntryLine (g : GitCrate) : String :=
  tabLine ("[" ++ g.name ++ "]=\x27" ++ g.repository ++ ";" ++ g.commit ++ ";" ++
    String.mk (lastSeg g.repository.data) ++ "-%commit%\x27")

/-- A boolean order on git dependencies: by name. -/
def gitLe (a b : GitCrate) : Prop := strLe a.name b.name = true

instance : DecidableRel gitLe := fun _ _ => decEq _ true

/-- Sort the git dependencies by name. -/
def sortGits (l : List GitCrate) : List GitCrate := List.insertionSort gitLe l

/-- Modelled from the spec: the rendered git-crate-mapping block: the
opening line, one entry per git dependency (sorted by name by the
caller), the closing line. -/
def gitBlock (gs : List GitCrate) : List String :=
  gitOpenLine :: gs.map gitEntryLine ++ [gitCloseLine]

/-- Drop one leading blank line: the separating blank line of a removed
git-crate-mapping block. -/
def dropBlank : List String → List String
  | "" :: rest => rest
  | l => l

/-- Modelled from the spec: the git-crate-mapping pass (spec section 4.3
step 4).  With git dependencies present, the at-most-once-occurring
block is rewritten to one entry per git dependency sorted by name, or a
new block with a separating blank line is inserted immediately before
the anchor line when no block exists; with no git dependencies an
existing block is removed together with its separating blank line.  A
block occurring more than once is a fatal inconsistency. -/
def gitPass (lines : List String) (gits : List GitCrate) : Except String (List String) :=
  match sortGits gits with
  | [] =>
    if lines.countP isGitOpen = 0 then .ok lines
    else if lines.countP isGitOpen = 1 then
      match splitMarker isGitOpen lines with
      | some (pre, _, rest) =>
        match splitMarker (fun l => decide (l = gitCloseLine)) rest with
        | some (_, _, suf) => .ok (pre ++ dropBlank suf)
        | none => .error "unterminated GIT_CRATES block in ebuild"
      | none => .error "GIT_CRATES block not found in ebuild"
    else .error "GIT_CRATES block occurs more than once in ebuild"
  | g :: gs =>
    if lines.countP isGitOpen = 0 then
      match splitMarker (fun l => decide (l = anchorLine)) lines with
      | some (pre, a, rest) => .ok (pre ++ gitBlock (g :: gs) ++ "" :: a :: rest)
      | none => .error "anchor line not found in ebuild"
    else if lines.countP isGitOpen = 1 then
      match splitMarker isGitOpen lines with
      | some (pre, _, rest) =>
        match splitMarker (fun l => decide (l = gitCloseLine)) rest with
        | some (_, _, suf) => .ok (pre ++ gitBlock (g :: gs) ++ suf)
        | none => .error "unterminated GIT_CRATES block in ebuild"
      | none => .error "GIT_CRATES block not found in ebuild"
    else .error "GIT_CRATES block occurs more than once in ebuild"

/-- Modelled from the spec: steps 1-3 of the patcher — the
dependency-list pass and, when crate licenses are requested, the
dependent-license pass (the per-dependency license strings stand in for
the fetch directory, whose archives only serve to deliver those
strings).  Each required region must occur exactly once in the input
text, else the stage fails. -/
def updateCore (lines : List String) (meta : PackageMetadata) (deps : List Crate)
    (depLicenses : List String) (crateLicense : Bool) : Except String (List String) :=
  if crateLicense = true ∧ countPairs lines ≠ 1 then
    .error "crate license block must occur exactly once in ebuild"
  else
    match cratesPass lines deps with
    | .error e => .error e
    | .ok t2 =>
      if crateLicense then
        match renderAddendumLines meta.license depLicenses with
        | some addLines => licPass t2 addLines
        | none => .error "cannot parse dependency license"
      else .ok t2

/-- Modelled from the spec: `update(existingText, meta, deps, fetchDir,
includeCrateLicenses)` (spec section 4.3): the dependency-list pass and,
when requested, the dependent-license pass (steps 1-3), followed by the
git-crate-mapping pass (step 4); all remaining lines pass through
unmodified (step 5).  The function is pure and an error result carries
no text. -/
def update_ebuild (lines : List String) (meta : PackageMetadata) (deps : List Crate)
    (depLicenses : List String) (crateLicense : Bool) : Except String (List String) :=
  match updateCore lines meta deps depLicenses crateLicense with
  | .error e => .error e
  | .ok t3 => gitPass t3 (gitCrates deps)

/-! ## Fetch-and-verify loop (`ebuild.py` lines 74-93)

The per-crate body of `get_ebuild`'s fetch loop: download when the
cached file is absent, then stream the file through the hasher in
buffer-sized chunks and compare the digest against the declared
checksum.  The hash function itself (`hashlib.sha256`) is external and
is passed as a parameter; feeding chunks incrementally equals hashing
the concatenation of the fed chunks. -/

/-- The fixed read buffer size from `ebuild.py`: `bytearray(128 * 1024)`. -/
def bufferSize : Nat := 128 * 1024

/-- The chunks successively read by the `f.readinto(mv)` loop: full
buffers until the stream is exhausted. -/
def readChunksF : Nat → List Nat → List (List Nat)
  | 0, _ => []
  | _ + 1, [] => []
  | fuel + 1, data => data.take bufferSize :: readChunksF fuel (data.drop bufferSize)

/-- The chunk sequence fed to the hasher for a given byte stream. -/
def readChunks (data : List Nat) : List (List Nat) := readChunksF data.length data

/-- The checksum verification of `ebuild.py` lines 84-93: hash the bytes
fed by the chunked read loop, then `assert hasher.hexdigest() == csum`
with a message carrying the actual and expected digests. -/
def verifyChecksum (digest : List Nat → String) (data : List Nat) (csum : String) :
    Except (String × String) Unit :=
  let actual := digest (readChunks data).flatten
  if actual = csum then .ok () else .error (actual, csum)

/-- The per-crate body of the fetch loop, `ebuild.py` lines 79-93:
`wget` runs only when the cache file does not exist (`cached` is
`path.exists()`); the checksum verification then runs unconditionally.
Returns whether a download happened, or the failed digest pair. -/
def processCrate (cached : Bool) (data : List Nat) (digest : List Nat → String)
    (csum : String) : Except (String × String) Bool :=
  let downloaded := !cached
  match verifyChecksum digest data csum with
  | .ok () => .ok downloaded
  | .error e => .error e

/-! ## Fresh-render fragments of the provided `ebuild.py` -/

/-- The dependency list of `ebuild.py` lines 69-71: all lock-file
packages except the primary package itself, in lock-file order, as
(name, version, checksum) triples. -/
def depsSrc (pkgname : String) (packages : List (String × String × String)) :
    List (String × String × String) :=
  packages.filter fun p => decide (p.1 ≠ pkgname)

/-- The rendered crate list of `ebuild.py` line 72: for each dependency
a tab, the name, a dash and the version, newline-joined, in dependency
order. -/
def cratesSrc (ds : List (String × String × String)) : String :=
  String.intercalate "\n" (ds.map fun p => "\t" ++ p.1 ++ "-" ++ p.2.1)

/-- The `CRATES` block of the ebuild template (`ebuild.py` lines 28-30):
an opening quote, a newline, the crate list, a newline, a closing
quote. -/
def cratesBlockSrc (ds : List (String × String × String)) : String :=
  "CRATES=\"\n" ++ cratesSrc ds ++ "\n\""

/-- The dependent-license append line of the ebuild template
(`ebuild.py` line 42): `LICENSE+=" ..."` — the template always places a
space between the opening quote and the rendered crate licenses. -/
def licenseAppendLineSrc (crateLicenses : String) : String :=
  "LICENSE+=\" " ++ crateLicenses ++ "\""

/-- Dictionary lookup, modelling Python `dict` access over the parsed
`[package]` table (first binding wins). -/
def lookupStr (d : List (String × String)) (k : String) : Option String :=
  (d.find? fun kv => kv.1 == k).map fun kv => kv.2

/-- The metadata field extraction of `ebuild.py` lines 60-65 and
107-114: `description` is read with `pkgmeta.get("description", "")`
(defaulting to the empty string), while `homepage` and `license` are
read with mandatory subscripts `pkgmeta["homepage"]` and
`pkgmeta["license"]`, which raise `KeyError` when the key is absent
(modelled as `none`). -/
def pkgFieldsSrc (pkgmeta : List (String × String)) : Option (String × String × String) :=
  match lookupStr pkgmeta "homepage", lookupStr pkgmeta "license" with
  | some h, some lic => some ((lookupStr pkgmeta "description").getD "", h, lic)
  | _, _ => none

/-! ## Theorems -/

theorem chLe_total : ∀ as bs : List Char, chLe as bs = true ∨ chLe bs as = true := by
  intro as
  induction as with
  | nil => intro bs; left; rfl
  | cons a as ih =>
    intro bs
    cases bs with
    | nil => right; rfl
    | cons b bs =>
      by_cases hab : a.toNat < b.toNat
      · left; simp [chLe, hab]
      · by_cases hba : b.toNat < a.toNat
        · right; simp [chLe, hba]
        · rcases ih bs with h | h
          · left; simp [chLe, hab, hba, h]
          · right; simp [chLe, hab, hba, h]

theorem chLe_trans : ∀ as bs cs : List Char,
    chLe as bs = true → chLe bs cs = true → chLe as cs = true := by
  intro as
  induction as with
  | nil => intro bs cs _ _; rfl
  | cons a as ih =>
    intro bs cs h1 h2
    cases bs with
    | nil => simp [chLe] at h1
    | cons b bs =>
      cases cs with
      | nil => simp [chLe] at h2
      | cons c cs =>
        simp only [chLe] at h1 h2 ⊢
        rcases Nat.lt_trichotomy a.toNat b.toNat with hab | hab | hab
        · rcases Nat.lt_trichotomy b.toNat c.toNat with hbc | hbc | hbc
          · simp [show a.toNat < c.toNat by omega]
          · simp [show a.toNat < c.toNat by omega]
          · simp [show ¬ b.toNat < c.toNat by omega, hbc] at h2
        · rcases Nat.lt_trichotomy b.toNat c.toNat with hbc | hbc | hbc
          · simp [show a.toNat < c.toNat by omega]
          · have h1' : chLe as bs = true := by
              simpa [show ¬ a.toNat < b.toNat by omega,
                     show ¬ b.toNat < a.toNat by omega] using h1
            have h2' : chLe bs cs = true := by
              simpa [show ¬ b.toNat < c.toNat by omega,
                     show ¬ c.toNat < b.toNat by omega] using h2
            simp [show ¬ a.toNat < c.toNat by omega,
                  show ¬ c.toNat < a.toNat by omega, ih bs cs h1' h2']
          · simp [show ¬ b.toNat < c.toNat by omega, hbc] at h2
        · simp [show ¬ a.toNat < b.toNat by omega, hab] at h1

theorem charToNat_inj : ∀ a b : Char, a.toNat = b.toNat → a = b :=
  fun _ _ h => Char.eq_of_val_eq (UInt32.ext h)

theorem chLe_antisymm : ∀ as bs : List Char,
    chLe as bs = true → chLe bs as = true → as = bs := by
  intro as
  induction as with
  | nil =>
    intro bs _ h2
    cases bs with
    | nil => rfl
    | cons b bs => simp [chLe] at h2
  | cons a as ih =>
    intro bs h1 h2
    cases bs with
    | nil => simp [chLe] at h1
    | cons b bs =>
      simp only [chLe] at h1 h2
      rcases Nat.lt_trichotomy a.toNat b.toNat with hab | hab | hab
      · simp [show ¬ b.toNat < a.toNat by omega, hab] at h2
      · have h1' : chLe as bs = true := by
          simpa [show ¬ a.toNat < b.toNat by omega,
                 show ¬ b.toNat < a.toNat by omega] using h1
        have h2' : chLe bs as = true := by
          simpa [show ¬ a.toNat < b.toNat by omega,
                 show ¬ b.toNat < a.toNat by omega] using h2
        rw [charToNat_inj a b hab, ih bs h1' h2']
      · simp [show ¬ a.toNat < b.toNat by omega, hab] at h1

theorem readChunksF_flatten : ∀ (fuel : Nat) (d : List Nat), d.length ≤ fuel →
    (readChunksF fuel d).flatten = d := by
  intro fuel
  induction fuel with
  | zero =>
    intro d hd
    have : d = [] := List.eq_nil_of_length_eq_zero (Nat.le_zero.mp hd)
    simp [this, readChunksF]
  | succ f ih =>
    intro d hd
    cases d with
    | nil => simp [readChunksF]
    | cons a r =>
      have hlen : ((a :: r).drop bufferSize).length ≤ f := by
        simp only [List.length_drop, List.length_cons] at *
        have : 0 < bufferSize := by decide
        omega
      simp only [readChunksF, List.flatten_cons, ih _ hlen, List.take_append_drop]

/-- The chunked read loop feeds the hasher exactly the full byte stream. -/
theorem readChunks_flatten (d : List Nat) : (readChunks d).flatten = d :=
  readChunksF_flatten d.length d le_rfl

/-- Checksum verification compares the digest of the full byte stream to
the declared checksum by exact string equality, and a mismatch reports
the actual and expected digests. -/
theorem verifyChecksum_eq (digest : List Nat → String) (data : List Nat) (csum : String) :
    verifyChecksum digest data csum =
      if digest data = csum then .ok () else .error (digest data, csum) := by
  unfold verifyChecksum
  rw [readChunks_flatten]

/-- C8 (corrected): the checksum comparison in `ebuild.py` line 91 is
exact string equality, not case-insensitive: a declared checksum whose
letters differ from the computed digest only in case fails verification,
as witnessed at digest `ab` versus declared checksum `AB`. -/
theorem c8_checksum_not_case_insensitive :
    verifyChecksum (fun _ => "ab") [] "AB" = .error ("ab", "AB") ∧
      lowerStr "ab" = lowerStr "AB" := by
  constructor
  · rfl
  · decide

/-- C8 (amended): for every fetched dependency archive, the digest is
computed over the full byte stream in fixed-size chunks and compared to
the declared checksum by exact (case-sensitive) string equality; a
mismatch fails fatally (no retry) with a diagnostic carrying the actual
and expected digests. -/
theorem c8_checksum_streaming_exact (digest : List Nat → String) (data : List Nat)
    (csum : String) :
    verifyChecksum digest data csum =
      if digest data = csum then .ok () else .error (digest data, csum) :=
  verifyChecksum_eq digest data csum

/-- C9 (counterexample): a dependency whose archive is already cached is
nevertheless checksum-verified: with the file present (`cached = true`),
a digest/checksum mismatch still fails the run, so the present file is
not trusted without re-verification. -/
theorem c9_cached_still_verified :
    processCrate true [0] (fun _ => "aa") "bb" = .error ("aa", "bb") := rfl

/-- C9 (amended): a cached dependency archive skips only the download
(the fetch runs exactly when the file is absent); checksum verification
runs unconditionally on every run, for cached and freshly-downloaded
files alike. -/
theorem c9_cache_skips_download_only (cached : Bool) (data : List Nat)
    (digest : List Nat → String) (csum : String) :
    processCrate cached data digest csum =
      if digest data = csum then .ok (!cached) else .error (digest data, csum) := by
  unfold processCrate
  rw [verifyChecksum_eq]
  by_cases h : digest data = csum <;> simp [h]

/-- C3 (code bug): the crate list rendered by the provided `ebuild.py`
(lines 69-72) lists dependencies in lock-file order joined with a dash
(`name-version`), not sorted `name@version` lines as the specification
and the repository's own test `test_get_ebuild` require, and an empty
dependency list renders as an open-and-close pair of lines rather than
collapsing to the empty-quoted form. -/
theorem c3_crates_rendering_diverges :
    cratesSrc (depsSrc "mypkg" [("foo", "1", "c1"), ("bar", "2", "c2")]) =
        "\tfoo-1\n\tbar-2" ∧
      "\tfoo-1\n\tbar-2" ≠ "\tbar@2\n\tfoo@1" ∧
      cratesBlockSrc (depsSrc "mypkg" []) = "CRATES=\"\n\n\"" ∧
      "CRATES=\"\n\n\"" ≠ "CRATES=\"\"" := by
  refine ⟨by decide, by decide, by decide, by decide⟩

/-- C5 (code bug): the template line 42 of the provided `ebuild.py`
always inserts a space after the opening quote of the dependent-license
append, so an empty license combination renders as a single-space append
rather than the empty-quoted append the specification and the
repository's own test `test_get_ebuild_no_crates` require. -/
theorem c5_empty_addendum_keeps_space :
    licenseAppendLineSrc "" = "LICENSE+=\" \"" ∧
      licenseAppendLineSrc "" ≠ "LICENSE+=\"\"" := by
  refine ⟨by decide, by decide⟩

/-- C10 (code bug): the provided `ebuild.py` (lines 60-65, 107-114)
reads `homepage` and `license` with mandatory subscripts that raise
`KeyError` when the field is absent, so generation fails rather than
rendering empty strings; only `description` is read with an
empty-string default. -/
theorem c10_missing_fields_raise :
    pkgFieldsSrc [("name", "foo"), ("version", "1.2.3")] = none ∧
      pkgFieldsSrc [("homepage", "https://example.com"), ("license", "MIT")] =
        some ("", "https://example.com", "MIT") := by
  refine ⟨by decide, by decide⟩

theorem stringData_append : ∀ a b : String, (a ++ b).data = a.data ++ b.data :=
  fun ⟨_⟩ ⟨_⟩ => rfl

theorem cargoToSpdxChars_spec : ∀ cs : List Char,
    cargoToSpdxChars cs = (cs.map fun c => if c = '/' then " OR ".data else [c]).flatten := by
  intro cs
  induction cs with
  | nil => rfl
  | cons c r ih =>
    by_cases h : c = '/' <;> simp [cargoToSpdxChars, h, ih]

theorem cargoToSpdxChars_no_slash : ∀ cs : List Char, '/' ∉ cargoToSpdxChars cs := by
  intro cs
  induction cs with
  | nil => simp [cargoToSpdxChars]
  | cons c r ih =>
    by_cases h : c = '/'
    · subst h
      intro hm
      rw [cargoToSpdxChars, if_pos rfl] at hm
      simp only [List.mem_cons] at hm
      rcases hm with h1 | h1 | h1 | h1 | h1
      · exact absurd h1 (by decide)
      · exact absurd h1 (by decide)
      · exact absurd h1 (by decide)
      · exact absurd h1 (by decide)
      · exact ih h1
    · intro hm
      rw [cargoToSpdxChars, if_neg h] at hm
      simp only [List.mem_cons] at hm
      rcases hm with h1 | h1
      · exact h h1.symm
      · exact ih h1

theorem flushWord_mem {acc : List Char} {rest : List LicTok} {s : String}
    (h : LicTok.word s ∈ flushWord acc rest) : s.data = acc ∨ LicTok.word s ∈ rest := by
  unfold flushWord at h
  by_cases ha : acc = []
  · right; simpa [ha] using h
  · simp only [if_neg ha, List.mem_cons] at h
    rcases h with h | h
    · left; cases s; injection h with h2; injection h2
    · right; exact h

theorem tokChars_word_chars : ∀ (cs acc : List Char) (s : String),
    LicTok.word s ∈ tokChars acc cs → ∀ c ∈ s.data, c ∈ acc ∨ c ∈ cs := by
  intro cs
  induction cs with
  | nil =>
    intro acc s h c hc
    rcases flushWord_mem h with h1 | h1
    · left; rw [← h1]; exact hc
    · simp at h1
  | cons x r ih =>
    intro acc s h c hc
    simp only [tokChars] at h
    by_cases hx : x = ' '
    · rw [if_pos hx] at h
      rcases flushWord_mem h with h1 | h1
      · left; rw [← h1]; exact hc
      · rcases ih [] s h1 c hc with h2 | h2
        · simp at h2
        · right; exact List.mem_cons_of_mem x h2
    · rw [if_neg hx] at h
      by_cases hl : x = '('
      · rw [if_pos hl] at h
        rcases flushWord_mem h with h1 | h1
        · left; rw [← h1]; exact hc
        · rcases List.mem_cons.mp h1 with h2 | h2
          · cases h2
          · rcases ih [] s h2 c hc with h3 | h3
            · simp at h3
            · right; exact List.mem_cons_of_mem x h3
      · rw [if_neg hl] at h
        by_cases hr : x = ')'
        · rw [if_pos hr] at h
          rcases flushWord_mem h with h1 | h1
          · left; rw [← h1]; exact hc
          · rcases List.mem_cons.mp h1 with h2 | h2
            · cases h2
            · rcases ih [] s h2 c hc with h3 | h3
              · simp at h3
              · right; exact List.mem_cons_of_mem x h3
        · rw [if_neg hr] at h
          rcases ih (acc ++ [x]) s h c hc with h1 | h1
          · rcases List.mem_append.mp h1 with h2 | h2
            · left; exact h2
            · right; simp at h2; simp [h2]
          · right; exact List.mem_cons_of_mem x h1


theorem parseSound : ∀ f : Nat, SoundP f ∧ SoundA f ∧ SoundAT f ∧ SoundO f ∧ SoundOT f := by
  intro f
  induction f with
  | zero =>
    refine ⟨?_, ?_, ?_, ?_, ?_⟩
    · intro ts e r h; cases h
    · intro ts e r h; cases h
    · intro e0 ts e r h; cases h
    · intro ts e r h; cases h
    · intro e0 ts e r h; cases h
  | succ f ih =>
    obtain ⟨ihP, ihA, ihAT, ihO, ihOT⟩ := ih
    have hP : SoundP (f + 1) := by
      intro ts e r h
      cases ts with
      | nil => cases h
      | cons t r0 =>
        cases t with
        | rparen => cases h
        | word s =>
          have h2 : (some (LicExpr.atom s, r0) : Option (LicExpr × List LicTok)) = some (e, r) := h
          injection h2 with h3
          injection h3 with h4 h5
          subst h4; subst h5
          refine ⟨?_, fun t ht => List.mem_cons_of_mem _ ht⟩
          intro s2 hs2
          simp only [exprWords, List.mem_singleton] at hs2
          subst hs2
          exact List.mem_cons_self _ _
        | lparen =>
          have h2 : (match parseOrL f r0 with
              | some (e1, .rparen :: r2) => some (e1, r2)
              | _ => none) = some (e, r) := h
          cases ho : parseOrL f r0 with
          | none => rw [ho] at h2; cases h2
          | some pr =>
            obtain ⟨e1, r1⟩ := pr
            rw [ho] at h2
            cases r1 with
            | nil => cases h2
            | cons t1 r2 =>
              cases t1 with
              | lparen => cases h2
              | word s1 => cases h2
              | rparen =>
                obtain ⟨hw, hr⟩ := ihO r0 e1 (LicTok.rparen :: r2) ho
                have h3 : (some (e1, r2) : Option (LicExpr × List LicTok)) = some (e, r) := h2
                injection h3 with h4
                injection h4 with h5 h6
                subst h5; subst h6
                refine ⟨fun s2 hs2 => List.mem_cons_of_mem _ (hw s2 hs2), ?_⟩
                intro t ht
                exact List.mem_cons_of_mem _ (hr t (List.mem_cons_of_mem _ ht))
    have hAT : SoundAT (f + 1) := by
      intro e0 ts e r h
      cases ts with
      | nil =>
        have h2 : (some (e0, ([] : List LicTok)) : Option (LicExpr × List LicTok)) = some (e, r) := h
        injection h2 with h3
        injection h3 with h4 h5
        subst h4; subst h5
        exact ⟨fun s hs => Or.inl hs, fun t ht => ht⟩
      | cons t r0 =>
        cases t with
        | lparen =>
          have h2 : (some (e0, LicTok.lparen :: r0) : Option (LicExpr × List LicTok)) = some (e, r) := h
          injection h2 with h3
          injection h3 with h4 h5
          subst h4; subst h5
          exact ⟨fun s hs => Or.inl hs, fun t ht => ht⟩
        | rparen =>
          have h2 : (some (e0, LicTok.rparen :: r0) : Option (LicExpr × List LicTok)) = some (e, r) := h
          injection h2 with h3
          injection h3 with h4 h5
          subst h4; subst h5
          exact ⟨fun s hs => Or.inl hs, fun t ht => ht⟩
        | word s1 =>
          have h2 : (if s1 = "AND" then
              match parsePrim f r0 with
              | some (e2, r2) => parseAndT f (.and e0 e2) r2
              | none => none
            else some (e0, LicTok.word s1 :: r0)) = some (e, r) := h
          by_cases hs1 : s1 = "AND"
          · rw [if_pos hs1] at h2
            cases hp : parsePrim f r0 with
            | none => rw [hp] at h2; cases h2
            | some pr =>
              obtain ⟨e2, r2⟩ := pr
              rw [hp] at h2
              obtain ⟨hw2, hr2⟩ := ihP r0 e2 r2 hp
              obtain ⟨hw3, hr3⟩ := ihAT (.and e0 e2) r2 e r h2
              constructor
              · intro s hs
                rcases hw3 s hs with h4 | h4
                · simp only [exprWords, List.mem_append] at h4
                  rcases h4 with h5 | h5
                  · exact Or.inl h5
                  · exact Or.inr (List.mem_cons_of_mem _ (hw2 s h5))
                · exact Or.inr (List.mem_cons_of_mem _ (hr2 _ h4))
              · intro t ht
                exact List.mem_cons_of_mem _ (hr2 t (hr3 t ht))
          · rw [if_neg hs1] at h2
            injection h2 with h3
            injection h3 with h4 h5
            subst h4; subst h5
            exact ⟨fun s hs => Or.inl hs, fun t ht => ht⟩
    have hA : SoundA (f + 1) := by
      intro ts e r h
      have h2 : (match parsePrim f ts with
          | some (e1, r1) => parseAndT f e1 r1
          | none => none) = some (e, r) := h
      cases hp : parsePrim f ts with
      | none => rw [hp] at h2; cases h2
      | some pr =>
        obtain ⟨e1, r1⟩ := pr
        rw [hp] at h2
        obtain ⟨hw1, hr1⟩ := ihP ts e1 r1 hp
        obtain ⟨hw2, hr2⟩ := ihAT e1 r1 e r h2
        constructor
        · intro s hs
          rcases hw2 s hs with h3 | h3
          · exact hw1 s h3
          · exact hr1 _ h3
        · intro t ht
          exact hr1 t (hr2 t ht)
    have hOT : SoundOT (f + 1) := by
      intro e0 ts e r h
      cases ts with
      | nil =>
        have h2 : (some (e0, ([] : List LicTok)) : Option (LicExpr × List LicTok)) = some (e, r) := h
        injection h2 with h3
        injection h3 with h4 h5
        subst h4; subst h5
        exact ⟨fun s hs => Or.inl hs, fun t ht => ht⟩
      | cons t r0 =>
        cases t with
        | lparen =>
          have h2 : (some (e0, LicTok.lparen :: r0) : Option (LicExpr × List LicTok)) = some (e, r) := h
          injection h2 with h3
          injection h3 with h4 h5
          subst h4; subst h5
          exact ⟨fun s hs => Or.inl hs, fun t ht => ht⟩
        | rparen =>
          have h2 : (some (e0, LicTok.rparen :: r0) : Option (LicExpr × List LicTok)) = some (e, r) := h
          injection h2 with h3
          injection h3 with h4 h5
          subst h4; subst h5
          exact ⟨fun s hs => Or.inl hs, fun t ht => ht⟩
        | word s1 =>
          have h2 : (if s1 = "OR" then
              match parseAndL f r0 with
              | some (e2, r2) => parseOrT f (.or e0 e2) r2
              | none => none
            else some (e0, LicTok.word s1 :: r0)) = some (e, r) := h
          by_cases hs1 : s1 = "OR"
          · rw [if_pos hs1] at h2
            cases hp : parseAndL f r0 with
            | none => rw [hp] at h2; cases h2
            | some pr =>
              obtain ⟨e2, r2⟩ := pr
              rw [hp] at h2
              obtain ⟨hw2, hr2⟩ := ihA r0 e2 r2 hp
              obtain ⟨hw3, hr3⟩ := ihOT (.or e0 e2) r2 e r h2
              constructor
              · intro s hs
                rcases hw3 s hs with h4 | h4
                · simp only [exprWords, List.mem_append] at h4
                  rcases h4 with h5 | h5
                  · exact Or.inl h5
                  · exact Or.inr (List.mem_cons_of_mem _ (hw2 s h5))
                · exact Or.inr (List.mem_cons_of_mem _ (hr2 _ h4))
              · intro t ht
                exact List.mem_cons_of_mem _ (hr2 t (hr3 t ht))
          · rw [if_neg hs1] at h2
            injection h2 with h3
            injection h3 with h4 h5
            subst h4; subst h5
            exact ⟨fun s hs => Or.inl hs, fun t ht => ht⟩
    have hO : SoundO (f + 1) := by
      intro ts e r h
      have h2 : (match parseAndL f ts with
          | some (e1, r1) => parseOrT f e1 r1
          | none => none) = some (e, r) := h
      cases hp : parseAndL f ts with
      | none => rw [hp] at h2; cases h2
      | some pr =>
        obtain ⟨e1, r1⟩ := pr
        rw [hp] at h2
        obtain ⟨hw1, hr1⟩ := ihA ts e1 r1 hp
        obtain ⟨hw2, hr2⟩ := ihOT e1 r1 e r h2
        constructor
        · intro s hs
          rcases hw2 s hs with h3 | h3
          · exact hw1 s h3
          · exact hr1 _ h3
        · intro t ht
          exact hr1 t (hr2 t ht)
    exact ⟨hP, hA, hAT, hO, hOT⟩

/-- Every atom of a parsed license expression is a word token of the
input string. -/
theorem parseLicense_words {s : String} {e : LicExpr} (h : parseLicense s = some e) :
    ∀ w ∈ exprWords e, LicTok.word w ∈ licTokens s := by
  have h2 : (match parseOrL (4 * (licTokens s).length + 4) (licTokens s) with
      | some (e1, []) => some e1
      | _ => none) = some e := h
  cases ho : parseOrL (4 * (licTokens s).length + 4) (licTokens s) with
  | none => rw [ho] at h2; cases h2
  | some pr =>
    obtain ⟨e1, r1⟩ := pr
    rw [ho] at h2
    cases r1 with
    | nil =>
      injection h2 with h1
      subst h1
      exact fun w hw => ((parseSound _).2.2.2.1 _ _ _ ho).1 w hw
    | cons t r2 => cases h2

theorem render_no_slash : ∀ e : LicExpr, (∀ s ∈ exprWords e, '/' ∉ s.data) →
    '/' ∉ (renderAnd e).data ∧ '/' ∉ (renderOr e).data := by
  intro e
  induction e with
  | atom s =>
    intro h
    have hs : '/' ∉ s.data := h s (by simp [exprWords])
    exact ⟨hs, hs⟩
  | and a b iha ihb =>
    intro h
    have ha := iha fun s hs => h s (by simp [exprWords, hs])
    have hb := ihb fun s hs => h s (by simp [exprWords, hs])
    constructor
    · show '/' ∉ (renderAnd a ++ " " ++ renderAnd b).data
      simp only [stringData_append, List.mem_append]
      rintro ((h1 | h1) | h1)
      · exact ha.1 h1
      · exact absurd h1 (by decide)
      · exact hb.1 h1
    · show '/' ∉ ("( " ++ renderAnd a ++ " " ++ renderAnd b ++ " )").data
      simp only [stringData_append, List.mem_append]
      rintro ((((h1 | h1) | h1) | h1) | h1)
      · exact absurd h1 (by decide)
      · exact ha.1 h1
      · exact absurd h1 (by decide)
      · exact hb.1 h1
      · exact absurd h1 (by decide)
  | or a b iha ihb =>
    intro h
    have ha := iha fun s hs => h s (by simp [exprWords, hs])
    have hb := ihb fun s hs => h s (by simp [exprWords, hs])
    constructor
    · show '/' ∉ ("|| ( " ++ renderOr a ++ " " ++ renderOr b ++ " )").data
      simp only [stringData_append, List.mem_append]
      rintro ((((h1 | h1) | h1) | h1) | h1)
      · exact absurd h1 (by decide)
      · exact ha.2 h1
      · exact absurd h1 (by decide)
      · exact hb.2 h1
      · exact absurd h1 (by decide)
    · show '/' ∉ (renderOr a ++ " " ++ renderOr b).data
      simp only [stringData_append, List.mem_append]
      rintro ((h1 | h1) | h1)
      · exact ha.2 h1
      · exact absurd h1 (by decide)
      · exact hb.2 h1

/-- C4 (confirmed): `cargo_to_spdx` substitutes every `/` by the `OR`
operator character-wise (the exact behaviour of the single-character
`str.replace` in `ebuild.py` line 52); the converted string contains no
`/`, and rendering any expression parsed from the converted string
contains no `/` either (parse and render are modelled from spec section
4.1, since the `license_expression` library is external). -/
theorem c4_slash_conversion (s : String) :
    (cargo_to_spdx s).data = (s.data.map fun c => if c = '/' then " OR ".data else [c]).flatten ∧
      '/' ∉ (cargo_to_spdx s).data ∧
      ∀ e, parseLicense (cargo_to_spdx s) = some e → '/' ∉ (renderAnd e).data := by
  refine ⟨cargoToSpdxChars_spec s.data, cargoToSpdxChars_no_slash s.data, ?_⟩
  intro e he
  have hw : ∀ w ∈ exprWords e, '/' ∉ w.data := by
    intro w hmem hc
    have ht := parseLicense_words he w hmem
    rcases tokChars_word_chars (cargo_to_spdx s).data [] w ht '/' hc with h1 | h1
    · exact absurd h1 (List.not_mem_nil _)
    · exact cargoToSpdxChars_no_slash s.data h1
  exact (render_no_slash e hw).1

theorem c4_slash_conversion_witness :
    '/' ∉ (cargo_to_spdx "MIT/Apache-2.0").data ∧
      '/' ∉ (renderAnd (.or (.atom "MIT") (.atom "Apache-2.0"))).data :=
  ⟨(c4_slash_conversion "MIT/Apache-2.0").2.1,
   (c4_slash_conversion "MIT/Apache-2.0").2.2 _ (by decide)⟩

theorem sortStrings_perm_eq {l1 l2 : List String} (h : l1.Perm l2) :
    sortStrings l1 = sortStrings l2 := by
  haveI : IsTotal String strLeR := ⟨fun a b => chLe_total a.data b.data⟩
  haveI : IsTrans String strLeR := ⟨fun a b c h1 h2 => chLe_trans a.data b.data c.data h1 h2⟩
  haveI : IsAntisymm String strLeR := ⟨fun a b h1 h2 => by
    cases a; cases b
    exact congrArg String.mk (chLe_antisymm _ _ h1 h2)⟩
  exact List.eq_of_perm_of_sorted
    ((List.perm_insertionSort strLeR l1).trans (h.trans (List.perm_insertionSort strLeR l2).symm))
    (List.sorted_insertionSort strLeR l1) (List.sorted_insertionSort strLeR l2)

theorem dedup_toFinset_self (l : List String) : l.dedup.toFinset = l.toFinset := by
  ext a
  simp [List.mem_toFinset, List.mem_dedup]

theorem mem_iff_of_toFinset_eq {l1 l2 : List String} (h : l1.toFinset = l2.toFinset)
    (a : String) : a ∈ l1 ↔ a ∈ l2 := by
  rw [← List.mem_toFinset, h, List.mem_toFinset]

theorem perm_dedup_of_toFinset_eq {l1 l2 : List String} (h : l1.toFinset = l2.toFinset) :
    l1.dedup.Perm l2.dedup := by
  apply List.perm_of_nodup_nodup_toFinset_eq (List.nodup_dedup _) (List.nodup_dedup _)
  rw [dedup_toFinset_self, dedup_toFinset_self, h]

theorem perm_dedup_filter (p : String → Bool) {l1 l2 : List String}
    (h : l1.toFinset = l2.toFinset) : (l1.filter p).dedup.Perm (l2.filter p).dedup := by
  apply perm_dedup_of_toFinset_eq
  ext a
  simp only [List.mem_toFinset, List.mem_filter]
  rw [mem_iff_of_toFinset_eq h]

theorem canonLicenseSet_toFinset_eq (primary : Option String) {l1 l2 : List String}
    (h : l1.toFinset = l2.toFinset) :
    canonLicenseSet primary l1 = canonLicenseSet primary l2 := by
  cases primary with
  | none =>
    exact sortStrings_perm_eq (perm_dedup_of_toFinset_eq h)
  | some p =>
    exact sortStrings_perm_eq (perm_dedup_filter (fun s => decide (s ≠ p)) h)

/-- C6 (confirmed): the rendered dependent-license addendum depends only
on the set of dependency license strings: any permutation of the input
order and any duplication of textually identical licenses (that is, any
input with the same `toFinset`) yields an identical rendering, for every
primary license. -/
theorem c6_aggregation_set_invariant (primary : Option String) (l1 l2 : List String)
    (h : l1.toFinset = l2.toFinset) :
    renderAddendumLines primary l1 = renderAddendumLines primary l2 := by
  unfold renderAddendumLines
  rw [canonLicenseSet_toFinset_eq primary h]

theorem c6_aggregation_set_invariant_witness :
    (["MIT", "Apache-2.0", "MIT"] : List String).toFinset =
        (["Apache-2.0", "MIT"] : List String).toFinset ∧
      renderAddendumLines (some "Apache-2.0") ["MIT", "Apache-2.0", "MIT"] =
        renderAddendumLines (some "Apache-2.0") ["Apache-2.0", "MIT"] :=
  ⟨by decide, c6_aggregation_set_invariant (some "Apache-2.0") _ _ (by decide)⟩

/-! ## Toolkit for the patcher proofs -/

theorem countPairs_nil : countPairs [] = 0 := rfl

theorem countPairs_single (a : String) : countPairs [a] = 0 := rfl

theorem countPairs_cons2 (a b : String) (rest : List String) :
    countPairs (a :: b :: rest) = pairBit a b + countPairs (b :: rest) := rfl

theorem pairBit_right (a b : String) (h : isLicOpener b = false) : pairBit a b = 0 := by
  unfold pairBit
  rw [if_neg]
  rintro ⟨_, h2⟩
  rw [h] at h2
  cases h2

theorem pairBit_left (a b : String) (h : a ≠ commentLine) : pairBit a b = 0 := by
  unfold pairBit
  rw [if_neg]
  rintro ⟨h1, _⟩
  exact h h1

theorem pairBit_of (a b : String) (h1 : a = commentLine) (h2 : isLicOpener b = true) :
    pairBit a b = 1 := by
  unfold pairBit
  rw [if_pos ⟨h1, h2⟩]

theorem countPairs_append_cons : ∀ (A : List String) (a : String) (B : List String),
    countPairs (A ++ a :: B) = countPairs (A ++ [a]) + countPairs (a :: B) := by
  intro A
  induction A with
  | nil =>
    intro a B
    simp [countPairs_single]
  | cons x A ih =>
    intro a B
    cases A with
    | nil =>
      simp only [List.nil_append, List.cons_append, countPairs_cons2, countPairs_single]
      omega
    | cons y A2 =>
      have ih2 := ih a B
      simp only [List.cons_append] at ih2 ⊢
      rw [countPairs_cons2, countPairs_cons2, ih2]
      omega

theorem countPairs_concat : ∀ (A : List String) (a : String),
    countPairs (A ++ [a]) =
      countPairs A + (match A.getLast? with | some x => pairBit x a | none => 0) := by
  intro A
  induction A with
  | nil => intro a; simp [countPairs_nil, countPairs_single]
  | cons x A ih =>
    intro a
    cases A with
    | nil =>
      simp only [List.nil_append, List.cons_append, countPairs_cons2, countPairs_single,
        countPairs_nil, List.getLast?_singleton]
      omega
    | cons y A2 =>
      have ih2 := ih a
      simp only [List.cons_append] at ih2 ⊢
      rw [countPairs_cons2, countPairs_cons2, ih2, List.getLast?_cons_cons]
      omega

theorem countPairs_le_append : ∀ (A B : List String), countPairs B ≤ countPairs (A ++ B) := by
  intro A
  induction A with
  | nil => intro B; simp
  | cons x A ih =>
    intro B
    cases hA : A ++ B with
    | nil =>
      have hB : B = [] := (List.append_eq_nil.mp hA).2
      subst hB
      simp [countPairs_nil]
    | cons y r =>
      calc countPairs B ≤ countPairs (A ++ B) := ih B
        _ ≤ pairBit x y + countPairs (y :: r) := by rw [← hA]; omega
        _ = countPairs (x :: (A ++ B)) := by rw [hA, countPairs_cons2]

theorem countPairs_zero_of_no_comment : ∀ L : List String,
    (∀ x ∈ L, x ≠ commentLine) → countPairs L = 0 := by
  intro L
  induction L with
  | nil => intro _; rfl
  | cons a t ih =>
    intro h
    cases t with
    | nil => rfl
    | cons b r =>
      rw [countPairs_cons2, pairBit_left a b (h a (by simp)),
        ih fun x hx => h x (List.mem_cons_of_mem _ hx)]

theorem countPairs_three : ∀ (A : List String) (m : String) (M1 B : List String),
    (∀ x, A.getLast? = some x → pairBit x m = 0) →
    (∀ x y, (m :: M1).getLast? = some x → B.head? = some y → pairBit x y = 0) →
    countPairs (A ++ (m :: M1) ++ B) = countPairs A + countPairs (m :: M1) + countPairs B := by
  intro A m M1 B h1 h2
  rw [List.append_assoc, List.cons_append, countPairs_append_cons A m (M1 ++ B),
    countPairs_concat]
  have hseam1 : (match A.getLast? with | some x => pairBit x m | none => 0) = 0 := by
    cases hA : A.getLast? with
    | none => rfl
    | some x => exact h1 x hA
  rw [hseam1]
  cases B with
  | nil =>
    simp only [List.append_nil, countPairs_nil]
    omega
  | cons b B2 =>
    have h3 : countPairs ((m :: M1) ++ b :: B2) = countPairs ((m :: M1) ++ [b]) + countPairs (b :: B2) :=
      countPairs_append_cons (m :: M1) b B2
    simp only [List.cons_append] at h3 ⊢
    rw [h3, show m :: (M1 ++ [b]) = (m :: M1) ++ [b] from (List.cons_append _ _ _).symm,
      countPairs_concat]
    have hseam2 : (match (m :: M1).getLast? with | some x => pairBit x b | none => 0) = 0 := by
      cases hM : (m :: M1).getLast? with
      | none => simp at hM
      | some x => exact h2 x b hM rfl
    simp only [List.cons_append] at hseam2
    rw [hseam2]
    omega

theorem splitMarker_sound (p : String → Bool) : ∀ (l : List String) (b : List String)
    (m : String) (a : List String), splitMarker p l = some (b, m, a) →
    l = b ++ m :: a ∧ p m = true ∧ ∀ x ∈ b, p x = false := by
  intro l
  induction l with
  | nil => intro b m a h; cases h
  | cons x rest ih =>
    intro b m a h
    have h2 : (if p x then some ([], x, rest)
        else (splitMarker p rest).map fun y => (x :: y.1, y.2.1, y.2.2)) = some (b, m, a) := h
    by_cases hx : p x = true
    · rw [if_pos hx] at h2
      injection h2 with h3
      injection h3 with h4 h5
      injection h5 with h6 h7
      subst h4; subst h6; subst h7
      exact ⟨rfl, hx, by simp⟩
    · rw [if_neg hx] at h2
      cases hs : splitMarker p rest with
      | none => rw [hs] at h2; cases h2
      | some y =>
        obtain ⟨b2, m2, a2⟩ := y
        rw [hs] at h2
        obtain ⟨hl, hm, hb⟩ := ih b2 m2 a2 hs
        injection h2 with h3
        injection h3 with h4 h5
        injection h5 with h6 h7
        subst h4; subst h6; subst h7
        refine ⟨by rw [hl]; rfl, hm, ?_⟩
        intro z hz
        rcases List.mem_cons.mp hz with h8 | h8
        · subst h8; exact Bool.eq_false_iff.mpr hx
        · exact hb z h8

theorem splitMarker_complete (p : String → Bool) : ∀ (b : List String) (m : String)
    (a : List String), (∀ x ∈ b, p x = false) → p m = true →
    splitMarker p (b ++ m :: a) = some (b, m, a) := by
  intro b
  induction b with
  | nil =>
    intro m a _ hm
    show (if p m then some ([], m, a)
        else (splitMarker p a).map fun y => (m :: y.1, y.2.1, y.2.2)) = some ([], m, a)
    rw [if_pos hm]
  | cons x b2 ih =>
    intro m a hb hm
    have hx : p x = false := hb x (by simp)
    show (if p x then some ([], x, b2 ++ m :: a)
        else (splitMarker p (b2 ++ m :: a)).map fun y => (x :: y.1, y.2.1, y.2.2)) =
      some (x :: b2, m, a)
    rw [if_neg (by rw [hx]; exact Bool.false_ne_true), ih m a (fun z hz => hb z (List.mem_cons_of_mem _ hz)) hm]
    rfl

theorem splitPair_sound : ∀ (l pre : List String) (o : String) (rest : List String),
    splitPair l = some (pre, o, rest) →
    l = pre ++ o :: rest ∧ pre ≠ [] ∧ pre.getLast? = some commentLine ∧
      isLicOpener o = true ∧ countPairs pre = 0 := by
  intro l
  induction l with
  | nil => intro pre o rest h; cases h
  | cons a t ih =>
    intro pre o rest h
    cases t with
    | nil => cases h
    | cons b r =>
      have h2 : (if a = commentLine ∧ isLicOpener b = true then some ([a], b, r)
          else (splitPair (b :: r)).map fun y => (a :: y.1, y.2.1, y.2.2)) = some (pre, o, rest) := h
      by_cases hp : a = commentLine ∧ isLicOpener b = true
      · rw [if_pos hp] at h2
        injection h2 with h3
        injection h3 with h4 h5
        injection h5 with h6 h7
        subst h4; subst h6; subst h7
        exact ⟨rfl, by simp, by rw [hp.1]; rfl, hp.2, rfl⟩
      · rw [if_neg hp] at h2
        cases hs : splitPair (b :: r) with
        | none => rw [hs] at h2; cases h2
        | some y =>
          obtain ⟨pre2, o2, rest2⟩ := y
          rw [hs] at h2
          replace h2 : some (a :: pre2, o2, rest2) = some (pre, o, rest) := h2
          obtain ⟨hl, hne, hlast, ho, hcp⟩ := ih pre2 o2 rest2 hs
          injection h2 with h3
          injection h3 with h4 h5
          injection h5 with h6 h7
          subst h4; subst h6; subst h7
          cases pre2 with
          | nil => exact absurd rfl hne
          | cons p0 ptail =>
            have hb : p0 = b := by
              have := congrArg List.head? hl
              simp at this
              exact this.symm
            refine ⟨by rw [hl]; rfl, by simp, ?_, ho, ?_⟩
            · rw [List.getLast?_cons_cons]
              exact hlast
            · rw [countPairs_cons2, hcp, hb]
              have : pairBit a b = 0 := by
                unfold pairBit
                rw [if_neg hp]
              omega

theorem splitPair_complete : ∀ (pre : List String) (o : String) (rest : List String),
    pre ≠ [] → pre.getLast? = some commentLine → countPairs pre = 0 →
    isLicOpener o = true → splitPair (pre ++ o :: rest) = some (pre, o, rest) := by
  intro pre
  induction pre with
  | nil => intro o rest h; exact absurd rfl h
  | cons a ptail ih =>
    intro o rest _ hlast hcp ho
    cases ptail with
    | nil =>
      have ha : a = commentLine := by
        simp at hlast
        exact hlast
      show (if a = commentLine ∧ isLicOpener o = true then some ([a], o, rest)
          else (splitPair (o :: rest)).map fun y => (a :: y.1, y.2.1, y.2.2)) =
        some ([a], o, rest)
      rw [if_pos ⟨ha, ho⟩]
    | cons p1 ptail2 =>
      rw [countPairs_cons2] at hcp
      have hp1 : pairBit a p1 = 0 := by omega
      have hcp2 : countPairs (p1 :: ptail2) = 0 := by omega
      have hlast2 : (p1 :: ptail2).getLast? = some commentLine := by
        rw [List.getLast?_cons_cons] at hlast
        exact hlast
      have hcond : ¬ (a = commentLine ∧ isLicOpener p1 = true) := by
        intro hc
        rw [pairBit_of a p1 hc.1 hc.2] at hp1
        cases hp1
      show (if a = commentLine ∧ isLicOpener p1 = true then some ([a], p1, ptail2 ++ o :: rest)
          else (splitPair (p1 :: ptail2 ++ o :: rest)).map fun y => (a :: y.1, y.2.1, y.2.2)) =
        some (a :: p1 :: ptail2, o, rest)
      rw [if_neg hcond]
      have h9 := ih o rest (by simp) hlast2 hcp2 ho
      simp only [List.cons_append] at h9 ⊢
      rw [h9]
      rfl

theorem isPfx_cons {a : Char} {as bs : List Char} (h : isPfx (a :: as) bs = true) :
    ∃ bs2, bs = a :: bs2 ∧ isPfx as bs2 = true := by
  cases bs with
  | nil => cases h
  | cons b bs2 =>
    have h2 : (if a = b then isPfx as bs2 else false) = true := h
    by_cases hab : a = b
    · subst hab
      rw [if_pos rfl] at h2
      exact ⟨bs2, rfl, h2⟩
    · rw [if_neg hab] at h2
      cases h2

theorem marker_head {l : String} (h : isCratesMarker l = true) :
    ∃ rest, l.data = 'C' :: rest := by
  have h2 : isPfx ('C' :: "RATES=\"".data) l.data = true := h
  obtain ⟨bs2, hb, _⟩ := isPfx_cons h2
  exact ⟨bs2, hb⟩

theorem opener_head {l : String} (h : isLicOpener l = true) :
    ∃ rest, l.data = 'L' :: rest := by
  have h2 : isPfx ('L' :: "ICENSE+=\"".data) l.data = true := h
  obtain ⟨bs2, hb, _⟩ := isPfx_cons h2
  exact ⟨bs2, hb⟩

theorem marker_not_opener {l : String} (h : isCratesMarker l = true) :
    isLicOpener l = false := by
  obtain ⟨rest, hr⟩ := marker_head h
  show isPfx "LICENSE+=\"".data l.data = false
  rw [hr]
  have : isPfx ('L' :: "ICENSE+=\"".data) ('C' :: rest) =
      (if ('L' : Char) = 'C' then isPfx "ICENSE+=\"".data rest else false) := rfl
  rw [this, if_neg (by decide)]

theorem opener_not_marker {l : String} (h : isLicOpener l = true) :
    isCratesMarker l = false := by
  obtain ⟨rest, hr⟩ := opener_head h
  show isPfx "CRATES=\"".data l.data = false
  rw [hr]
  have : isPfx ('C' :: "RATES=\"".data) ('L' :: rest) =
      (if ('C' : Char) = 'L' then isPfx "RATES=\"".data rest else false) := rfl
  rw [this, if_neg (by decide)]

theorem data_ne_imp_ne {l m : String} (h : l.data ≠ m.data) : l ≠ m := by
  intro he
  exact h (congrArg String.data he)

theorem marker_ne_comment {l : String} (h : isCratesMarker l = true) : l ≠ commentLine := by
  obtain ⟨rest, hr⟩ := marker_head h
  apply data_ne_imp_ne
  rw [hr]
  rw [show commentLine.data = '#' :: " Dependent crate licenses".data from rfl]
  intro he
  injection he with h1 _
  cases h1

theorem marker_ne_quote {l : String} (h : isCratesMarker l = true) : l ≠ "\"" := by
  obtain ⟨rest, hr⟩ := marker_head h
  apply data_ne_imp_ne
  rw [hr, show ("\"" : String).data = ['"'] from rfl]
  intro he
  injection he with h1 _
  cases h1

theorem opener_ne_comment {l : String} (h : isLicOpener l = true) : l ≠ commentLine := by
  obtain ⟨rest, hr⟩ := opener_head h
  apply data_ne_imp_ne
  rw [hr]
  rw [show commentLine.data = '#' :: " Dependent crate licenses".data from rfl]
  intro he
  injection he with h1 _
  cases h1

theorem tabLine_not_marker (s : String) : isCratesMarker (tabLine s) = false := by
  show isPfx "CRATES=\"".data ('\t' :: s.data) = false
  have : isPfx ('C' :: "RATES=\"".data) ('\t' :: s.data) =
      (if ('C' : Char) = '\t' then isPfx "RATES=\"".data s.data else false) := rfl
  rw [this, if_neg (by decide)]

theorem tabLine_not_opener (s : String) : isLicOpener (tabLine s) = false := by
  show isPfx "LICENSE+=\"".data ('\t' :: s.data) = false
  have : isPfx ('L' :: "ICENSE+=\"".data) ('\t' :: s.data) =
      (if ('L' : Char) = '\t' then isPfx "ICENSE+=\"".data s.data else false) := rfl
  rw [this, if_neg (by decide)]

theorem tabLine_ne_quote (s : String) : tabLine s ≠ "\"" := by
  apply data_ne_imp_ne
  rw [show (tabLine s).data = '\t' :: s.data from rfl, show ("\"" : String).data = ['"'] from rfl]
  intro he
  injection he with h1 _
  cases h1

theorem tabLine_ne_comment (s : String) : tabLine s ≠ commentLine := by
  apply data_ne_imp_ne
  rw [show (tabLine s).data = '\t' :: s.data from rfl,
    show commentLine.data = '#' :: " Dependent crate licenses".data from rfl]
  intro he
  injection he with h1 _
  cases h1

theorem tabLine_not_gitOpen (s : String) : isGitOpen (tabLine s) = false := by
  unfold isGitOpen
  apply decide_eq_false
  intro he
  have h1 : (tabLine s).data = gitOpenLine.data := congrArg String.data he
  rw [show (tabLine s).data = '\t' :: s.data from rfl,
    show gitOpenLine.data = 'd' :: "eclare -A GIT_CRATES=(".data from rfl] at h1
  injection h1 with h2 _
  cases h2

theorem renderCratesLines_shape (deps : List Crate) :
    renderCratesLines deps = ["CRATES=\"\""] ∨
      ∃ tabs : List String, renderCratesLines deps = "CRATES=\"" :: tabs ++ ["\""] ∧
        ∀ x ∈ tabs, ∃ s, x = tabLine s := by
  unfold renderCratesLines
  cases sortCrates (fileCrates deps) with
  | nil => left; rfl
  | cons c fc =>
    right
    refine ⟨(c :: fc).map crateLine, rfl, ?_⟩
    intro x hx
    obtain ⟨c2, _, hc2⟩ := List.mem_map.mp hx
    exact ⟨c2.name ++ "@" ++ c2.version, hc2.symm⟩

theorem licenseBlock_shape (add : List String) :
    licenseBlock add = ["LICENSE+=\"\""] ∨
      ∃ tabs : List String, licenseBlock add = "LICENSE+=\"" :: tabs ++ ["\""] ∧
        ∀ x ∈ tabs, ∃ s, x = tabLine s := by
  unfold licenseBlock
  cases add with
  | nil => left; rfl
  | cons a rest =>
    right
    refine ⟨(a :: rest).map tabLine, rfl, ?_⟩
    intro x hx
    obtain ⟨s, _, hs⟩ := List.mem_map.mp hx
    exact ⟨s, hs.symm⟩

theorem CC_countP (deps : List Crate) :
    (renderCratesLines deps).countP isCratesMarker = 1 := by
  rcases renderCratesLines_shape deps with h | ⟨tabs, h, htabs⟩ <;> rw [h]
  · decide
  · rw [show ("CRATES=\"" :: tabs ++ ["\""]) = ["CRATES=\""] ++ tabs ++ ["\""] from rfl]
    rw [List.countP_append, List.countP_append]
    have h1 : List.countP isCratesMarker ["CRATES=\""] = 1 := by decide
    have h2 : List.countP isCratesMarker tabs = 0 := by
      rw [List.countP_eq_zero]
      intro x hx
      obtain ⟨s, hs⟩ := htabs x hx
      rw [hs, tabLine_not_marker]
      exact Bool.false_ne_true
    have h3 : List.countP isCratesMarker ["\""] = 0 := by decide
    omega

theorem CC_no_comment (deps : List Crate) :
    ∀ x ∈ renderCratesLines deps, x ≠ commentLine := by
  rcases renderCratesLines_shape deps with h | ⟨tabs, h, htabs⟩ <;> rw [h] <;> intro x hx
  · rw [List.mem_singleton] at hx
    subst hx
    exact marker_ne_comment (by decide)
  · rcases List.mem_cons.mp hx with h1 | h1
    · subst h1; exact marker_ne_comment (by decide)
    · rcases List.mem_append.mp h1 with h2 | h2
      · obtain ⟨s, hs⟩ := htabs x h2
        rw [hs]; exact tabLine_ne_comment s
      · rw [List.mem_singleton] at h2
        subst h2
        intro he
        exact absurd (congrArg String.data he) (by decide)

theorem CC_no_opener (deps : List Crate) :
    ∀ x ∈ renderCratesLines deps, isLicOpener x = false := by
  rcases renderCratesLines_shape deps with h | ⟨tabs, h, htabs⟩ <;> rw [h] <;> intro x hx
  · rw [List.mem_singleton] at hx
    subst hx
    exact marker_not_opener (by decide)
  · rcases List.mem_cons.mp hx with h1 | h1
    · subst h1; exact marker_not_opener (by decide)
    · rcases List.mem_append.mp h1 with h2 | h2
      · obtain ⟨s, hs⟩ := htabs x h2
        rw [hs]; exact tabLine_not_opener s
      · rw [List.mem_singleton] at h2
        subst h2
        decide

theorem CC_no_gitOpen (deps : List Crate) :
    ∀ x ∈ renderCratesLines deps, isGitOpen x = false := by
  rcases renderCratesLines_shape deps with h | ⟨tabs, h, htabs⟩ <;> rw [h] <;> intro x hx
  · rw [List.mem_singleton] at hx
    subst hx
    decide
  · rcases List.mem_cons.mp hx with h1 | h1
    · subst h1; decide
    · rcases List.mem_append.mp h1 with h2 | h2
      · obtain ⟨s, hs⟩ := htabs x h2
        rw [hs]
        exact tabLine_not_gitOpen s
      · rw [List.mem_singleton] at h2
        subst h2
        decide

theorem CC_countPairs (deps : List Crate) : countPairs (renderCratesLines deps) = 0 :=
  countPairs_zero_of_no_comment _ (CC_no_comment deps)

theorem CC_head (deps : List Crate) :
    ∃ m rest, renderCratesLines deps = m :: rest ∧ isCratesMarker m = true := by
  rcases renderCratesLines_shape deps with h | ⟨tabs, h, _⟩ <;> rw [h]
  · exact ⟨_, _, rfl, by decide⟩
  · exact ⟨_, _, rfl, by decide⟩

theorem CC_last_ne_comment (deps : List Crate) :
    ∀ x, (renderCratesLines deps).getLast? = some x → x ≠ commentLine := by
  intro x hx
  have hmem : x ∈ renderCratesLines deps := List.mem_of_mem_getLast? hx
  exact CC_no_comment deps x hmem

theorem LB_countP (add : List String) :
    (licenseBlock add).countP isCratesMarker = 0 := by
  rw [List.countP_eq_zero]
  rcases licenseBlock_shape add with h | ⟨tabs, h, htabs⟩ <;> rw [h] <;> intro x hx
  · rw [List.mem_singleton] at hx
    subst hx
    decide
  · rcases List.mem_cons.mp hx with h1 | h1
    · subst h1; decide
    · rcases List.mem_append.mp h1 with h2 | h2
      · obtain ⟨s, hs⟩ := htabs x h2
        rw [hs, tabLine_not_marker]
        exact Bool.false_ne_true
      · rw [List.mem_singleton] at h2
        subst h2
        decide

theorem LB_no_comment (add : List String) :
    ∀ x ∈ licenseBlock add, x ≠ commentLine := by
  rcases licenseBlock_shape add with h | ⟨tabs, h, htabs⟩ <;> rw [h] <;> intro x hx
  · rw [List.mem_singleton] at hx
    subst hx
    exact opener_ne_comment (by decide)
  · rcases List.mem_cons.mp hx with h1 | h1
    · subst h1; exact opener_ne_comment (by decide)
    · rcases List.mem_append.mp h1 with h2 | h2
      · obtain ⟨s, hs⟩ := htabs x h2
        rw [hs]; exact tabLine_ne_comment s
      · rw [List.mem_singleton] at h2
        subst h2
        intro he
        exact absurd (congrArg String.data he) (by decide)

theorem LB_no_gitOpen (add : List String) :
    ∀ x ∈ licenseBlock add, isGitOpen x = false := by
  rcases licenseBlock_shape add with h | ⟨tabs, h, htabs⟩ <;> rw [h] <;> intro x hx
  · rw [List.mem_singleton] at hx
    subst hx
    decide
  · rcases List.mem_cons.mp hx with h1 | h1
    · subst h1; decide
    · rcases List.mem_append.mp h1 with h2 | h2
      · obtain ⟨s, hs⟩ := htabs x h2
        rw [hs]
        exact tabLine_not_gitOpen s
      · rw [List.mem_singleton] at h2
        subst h2
        decide

theorem LB_countPairs (add : List String) : countPairs (licenseBlock add) = 0 :=
  countPairs_zero_of_no_comment _ (LB_no_comment add)

theorem LB_head (add : List String) :
    ∃ o rest, licenseBlock add = o :: rest ∧ isLicOpener o = true := by
  rcases licenseBlock_shape add with h | ⟨tabs, h, _⟩ <;> rw [h]
  · exact ⟨_, _, rfl, by decide⟩
  · exact ⟨_, _, rfl, by decide⟩

theorem LB_last_ne_comment (add : List String) :
    ∀ x, (licenseBlock add).getLast? = some x → x ≠ commentLine := by
  intro x hx
  exact LB_no_comment add x (List.mem_of_mem_getLast? hx)

theorem countP_zero_iff (p : String → Bool) (l : List String) :
    l.countP p = 0 ↔ ∀ x ∈ l, p x = false := by
  rw [List.countP_eq_zero]
  constructor
  · intro h x hx
    exact Bool.eq_false_iff.mpr (h x hx)
  · intro h x hx
    rw [h x hx]
    exact Bool.false_ne_true

theorem cratesPass_step {lines : List String} (deps : List Crate) {pre : List String}
    {m : String} {rest : List String} (hcount : lines.countP isCratesMarker = 1)
    (hs : splitMarker isCratesMarker lines = some (pre, m, rest)) :
    cratesPass lines deps =
      (if m = "CRATES=\"" then
        match splitMarker (fun l => decide (l = "\"")) rest with
        | some (_, _, suf) => .ok (pre ++ renderCratesLines deps ++ suf)
        | none => .error "unterminated CRATES block in ebuild"
      else .ok (pre ++ renderCratesLines deps ++ rest)) := by
  unfold cratesPass
  rw [if_pos hcount, hs]

theorem licPass_step {t2 : List String} (add : List String) {preL : List String}
    {o : String} {rest : List String} (hs : splitPair t2 = some (preL, o, rest)) :
    licPass t2 add =
      (if o = "LICENSE+=\"" then
        match splitMarker (fun l => decide (l = "\"")) rest with
        | some (interior, _, suf) =>
          if interior.any isCratesMarker = true then
            .error "malformed crate license block in ebuild"
          else .ok (preL ++ licenseBlock add ++ suf)
        | none => .error "unterminated crate license block in ebuild"
      else .ok (preL ++ licenseBlock add ++ rest)) := by
  unfold licPass
  rw [hs]

theorem cratesPass_ok_decomp {lines : List String} {deps : List Crate} {t2 : List String}
    (h : cratesPass lines deps = .ok t2) :
    ∃ pre m midrest suf,
      lines = pre ++ (m :: midrest) ++ suf ∧
      t2 = pre ++ renderCratesLines deps ++ suf ∧
      isCratesMarker m = true ∧
      (∀ x, (m :: midrest).getLast? = some x → x ≠ commentLine) ∧
      pre.countP isCratesMarker = 0 ∧ suf.countP isCratesMarker = 0 := by
  by_cases hcount : lines.countP isCratesMarker = 1
  · cases hs : splitMarker isCratesMarker lines with
    | none =>
      unfold cratesPass at h
      rw [if_pos hcount, hs] at h
      cases h
    | some y =>
      obtain ⟨pre, m, rest⟩ := y
      rw [cratesPass_step deps hcount hs] at h
      obtain ⟨hl, hm, hpre⟩ := splitMarker_sound isCratesMarker lines pre m rest hs
      have hpre0 : pre.countP isCratesMarker = 0 := (countP_zero_iff _ _).mpr hpre
      have hrest0 : rest.countP isCratesMarker = 0 := by
        rw [hl, List.countP_append, List.countP_cons, hm] at hcount
        simp only [if_pos] at hcount
        omega
      by_cases hbare : m = "CRATES=\""
      · rw [if_pos hbare] at h
        cases hc : splitMarker (fun l => decide (l = "\"")) rest with
        | none => rw [hc] at h; cases h
        | some y2 =>
          obtain ⟨interior, c, suf⟩ := y2
          rw [hc] at h
          injection h with ht2
          obtain ⟨hr, hcq, _⟩ := splitMarker_sound _ rest interior c suf hc
          have hcq2 : c = "\"" := of_decide_eq_true hcq
          subst hcq2
          refine ⟨pre, m, interior ++ ["\""], suf, ?_, ht2.symm, hm, ?_, hpre0, ?_⟩
          · rw [hl, hr]
            simp
          · intro x hx
            rw [show m :: (interior ++ ["\""]) = (m :: interior) ++ ["\""] from rfl,
              List.getLast?_concat] at hx
            injection hx with hx2
            subst hx2
            intro he
            exact absurd (congrArg String.data he) (by decide)
          · rw [hr, List.countP_append, List.countP_cons] at hrest0
            omega
      · rw [if_neg hbare] at h
        injection h with ht2
        refine ⟨pre, m, [], rest, by simpa using hl, ht2.symm, hm, ?_, hpre0, hrest0⟩
        intro x hx
        injection hx with hx2
        subst hx2
        exact marker_ne_comment hm
  · unfold cratesPass at h
    rw [if_neg hcount] at h
    cases h

theorem cratesPass_canonical (X Y : List String) (deps : List Crate)
    (hX : X.countP isCratesMarker = 0) (hY : Y.countP isCratesMarker = 0) :
    cratesPass (X ++ renderCratesLines deps ++ Y) deps =
      .ok (X ++ renderCratesLines deps ++ Y) := by
  have hcount : (X ++ renderCratesLines deps ++ Y).countP isCratesMarker = 1 := by
    rw [List.countP_append, List.countP_append, hX, hY, CC_countP]
  have hXf : ∀ x ∈ X, isCratesMarker x = false := (countP_zero_iff _ _).mp hX
  rcases renderCratesLines_shape deps with hsh | ⟨tabs, hsh, htabs⟩
  · have hre : X ++ renderCratesLines deps ++ Y = X ++ "CRATES=\"\"" :: Y := by
      rw [hsh]; simp
    have hsplit : splitMarker isCratesMarker (X ++ renderCratesLines deps ++ Y) =
        some (X, "CRATES=\"\"", Y) := by
      rw [hre]
      exact splitMarker_complete isCratesMarker X "CRATES=\"\"" Y hXf (by decide)
    rw [cratesPass_step deps hcount hsplit, if_neg (show ¬ ("CRATES=\"\"" = "CRATES=\"") by decide)]
  · have hre : X ++ renderCratesLines deps ++ Y = X ++ "CRATES=\"" :: (tabs ++ "\"" :: Y) := by
      rw [hsh]; simp
    have htabs2 : ∀ x ∈ tabs, (fun l => decide (l = "\"")) x = false := by
      intro x hx
      obtain ⟨s, hs⟩ := htabs x hx
      rw [hs]
      exact decide_eq_false (tabLine_ne_quote s)
    have hsplit : splitMarker isCratesMarker (X ++ renderCratesLines deps ++ Y) =
        some (X, "CRATES=\"", tabs ++ "\"" :: Y) := by
      rw [hre]
      exact splitMarker_complete isCratesMarker X "CRATES=\"" (tabs ++ "\"" :: Y) hXf (by decide)
    rw [cratesPass_step deps hcount hsplit, if_pos rfl]
    have hsplit2 : splitMarker (fun l => decide (l = "\"")) (tabs ++ "\"" :: Y) =
        some (tabs, "\"", Y) :=
      splitMarker_complete _ tabs "\"" Y htabs2 (by decide)
    rw [hsplit2]

theorem licPass_ok_decomp {t2 add T2 : List String} (h : licPass t2 add = .ok T2) :
    ∃ preL o segrest sufL,
      t2 = preL ++ (o :: segrest) ++ sufL ∧
      T2 = preL ++ licenseBlock add ++ sufL ∧
      preL ≠ [] ∧ preL.getLast? = some commentLine ∧ countPairs preL = 0 ∧
      isLicOpener o = true ∧
      (o :: segrest).countP isCratesMarker = 0 ∧
      (∀ x, (o :: segrest).getLast? = some x → x ≠ commentLine) := by
  cases hs : splitPair t2 with
  | none =>
    unfold licPass at h
    rw [hs] at h
    cases h
  | some y =>
    obtain ⟨preL, o, rest⟩ := y
    rw [licPass_step add hs] at h
    obtain ⟨hl, hne, hlast, ho, hcp⟩ := splitPair_sound t2 preL o rest hs
    by_cases hbare : o = "LICENSE+=\""
    · rw [if_pos hbare] at h
      cases hc : splitMarker (fun l => decide (l = "\"")) rest with
      | none => rw [hc] at h; cases h
      | some y2 =>
        obtain ⟨interior, c, suf⟩ := y2
        rw [hc] at h
        obtain ⟨hr, hcq, _⟩ := splitMarker_sound _ rest interior c suf hc
        have hcq2 : c = "\"" := of_decide_eq_true hcq
        subst hcq2
        replace h : (if interior.any isCratesMarker = true then
            (Except.error "malformed crate license block in ebuild" : Except String (List String))
          else .ok (preL ++ licenseBlock add ++ suf)) = .ok T2 := h
        by_cases hguard : interior.any isCratesMarker = true
        · rw [if_pos hguard] at h; cases h
        · rw [if_neg hguard] at h
          injection h with hT
          refine ⟨preL, o, interior ++ ["\""], suf, ?_, hT.symm, hne, hlast, hcp, ho, ?_, ?_⟩
          · rw [hl, hr]
            simp
          · rw [List.countP_cons, List.countP_append]
            have h1 : interior.countP isCratesMarker = 0 := by
              rw [countP_zero_iff]
              intro x hx
              rcases hb : isCratesMarker x with _ | _
              · rfl
              · exact absurd (List.any_eq_true.mpr ⟨x, hx, hb⟩) hguard
            have h2 : List.countP isCratesMarker ["\""] = 0 := by decide
            rw [opener_not_marker ho, if_neg Bool.false_ne_true]
            omega
          · intro x hx
            rw [show o :: (interior ++ ["\""]) = (o :: interior) ++ ["\""] from rfl,
              List.getLast?_concat] at hx
            injection hx with hx2
            subst hx2
            intro he
            exact absurd (congrArg String.data he) (by decide)
    · rw [if_neg hbare] at h
      injection h with hT
      refine ⟨preL, o, [], rest, by simpa using hl, hT.symm, hne, hlast, hcp, ho, ?_, ?_⟩
      · rw [List.countP_cons, opener_not_marker ho, List.countP_nil]
        simp
      · intro x hx
        injection hx with hx2
        subst hx2
        exact opener_ne_comment ho

theorem licPass_canonical (P S add : List String) (hP : P ≠ [])
    (hPl : P.getLast? = some commentLine) (hP0 : countPairs P = 0) :
    licPass (P ++ licenseBlock add ++ S) add = .ok (P ++ licenseBlock add ++ S) := by
  rcases licenseBlock_shape add with hsh | ⟨tabs, hsh, htabs⟩
  · have hre : P ++ licenseBlock add ++ S = P ++ "LICENSE+=\"\"" :: S := by
      rw [hsh]; simp
    have hsplit : splitPair (P ++ licenseBlock add ++ S) = some (P, "LICENSE+=\"\"", S) := by
      rw [hre]
      exact splitPair_complete P "LICENSE+=\"\"" S hP hPl hP0 (by decide)
    rw [licPass_step add hsplit,
      if_neg (show ¬ ("LICENSE+=\"\"" = "LICENSE+=\"") by decide)]
  · have hre : P ++ licenseBlock add ++ S = P ++ "LICENSE+=\"" :: (tabs ++ "\"" :: S) := by
      rw [hsh]; simp
    have htabs2 : ∀ x ∈ tabs, (fun l => decide (l = "\"")) x = false := by
      intro x hx
      obtain ⟨s, hs⟩ := htabs x hx
      rw [hs]
      exact decide_eq_false (tabLine_ne_quote s)
    have hsplit : splitPair (P ++ licenseBlock add ++ S) =
        some (P, "LICENSE+=\"", tabs ++ "\"" :: S) := by
      rw [hre]
      exact splitPair_complete P "LICENSE+=\"" (tabs ++ "\"" :: S) hP hPl hP0 (by decide)
    rw [licPass_step add hsplit, if_pos rfl]
    have hsplit2 : splitMarker (fun l => decide (l = "\"")) (tabs ++ "\"" :: S) =
        some (tabs, "\"", S) :=
      splitMarker_complete _ tabs "\"" S htabs2 (by decide)
    rw [hsplit2]
    have hguard : tabs.any isCratesMarker = false := by
      rw [List.any_eq_false]
      intro x hx
      obtain ⟨s, hs⟩ := htabs x hx
      rw [hs, tabLine_not_marker]
      exact Bool.false_ne_true
    show (if tabs.any isCratesMarker = true then
        (Except.error "malformed crate license block in ebuild" : Except String (List String))
      else .ok (P ++ licenseBlock add ++ S)) = .ok (P ++ licenseBlock add ++ S)
    rw [if_neg (by rw [hguard]; exact Bool.false_ne_true)]

theorem gitPass_nil_id {t : List String} (h : t.countP isGitOpen = 0) :
    gitPass t [] = .ok t := by
  unfold gitPass
  rw [show sortGits ([] : List GitCrate) = [] from rfl]
  rw [if_pos h]

theorem updateCore_region_error (lines : List String) (meta : PackageMetadata)
    (deps : List Crate) (lics : List String) (flag : Bool)
    (h : lines.countP isCratesMarker ≠ 1 ∨ (flag = true ∧ countPairs lines ≠ 1)) :
    ∃ e, updateCore lines meta deps lics flag = .error e := by
  unfold updateCore
  by_cases hcond : flag = true ∧ countPairs lines ≠ 1
  · rw [if_pos hcond]
    exact ⟨_, rfl⟩
  · rw [if_neg hcond]
    have hcount : lines.countP isCratesMarker ≠ 1 := by
      rcases h with h | h
      · exact h
      · exact absurd h hcond
    have hcp : cratesPass lines deps = .error "CRATES block must occur exactly once in ebuild" := by
      unfold cratesPass
      rw [if_neg hcount]
    rw [hcp]
    exact ⟨_, rfl⟩

theorem updateCore_ok_gitcount {lines : List String} {meta : PackageMetadata}
    {deps : List Crate} {lics : List String} {flag : Bool} {t3 : List String}
    (h0 : lines.countP isGitOpen = 0)
    (hc : updateCore lines meta deps lics flag = .ok t3) :
    t3.countP isGitOpen = 0 := by
  unfold updateCore at hc
  by_cases hcond : flag = true ∧ countPairs lines ≠ 1
  · rw [if_pos hcond] at hc
    cases hc
  · rw [if_neg hcond] at hc
    cases hcp : cratesPass lines deps with
    | error e =>
      rw [hcp] at hc
      cases hc
    | ok t2 =>
      rw [hcp] at hc
      obtain ⟨pre, m, midrest, suf, hl, ht, _, _, _, _⟩ := cratesPass_ok_decomp hcp
      have hps : pre.countP isGitOpen = 0 ∧ suf.countP isGitOpen = 0 := by
        rw [hl, List.countP_append, List.countP_append] at h0
        omega
      have hCC : (renderCratesLines deps).countP isGitOpen = 0 :=
        (countP_zero_iff _ _).mpr (CC_no_gitOpen deps)
      have ht2g : t2.countP isGitOpen = 0 := by
        rw [ht, List.countP_append, List.countP_append, hps.1, hps.2, hCC]
      cases flag with
      | false =>
        replace hc : (Except.ok t2 : Except String (List String)) = .ok t3 := hc
        injection hc with h2
        rw [← h2]
        exact ht2g
      | true =>
        replace hc : (match renderAddendumLines meta.license lics with
          | some a => licPass t2 a
          | none => (Except.error "cannot parse dependency license" :
              Except String (List String))) = .ok t3 := hc
        cases hra : renderAddendumLines meta.license lics with
        | none =>
          rw [hra] at hc
          cases hc
        | some add =>
          rw [hra] at hc
          replace hc : licPass t2 add = .ok t3 := hc
          obtain ⟨preL, o, segrest, sufL, hlt, hT, _, _, _, _, _, _⟩ := licPass_ok_decomp hc
          have hLB : (licenseBlock add).countP isGitOpen = 0 :=
            (countP_zero_iff _ _).mpr (LB_no_gitOpen add)
          rw [hlt, List.countP_append, List.countP_append] at ht2g
          rw [hT, List.countP_append, List.countP_append, hLB]
          omega

/-- C1 (confirmed): when the patcher runs on an existing artifact, the
dependency-list region must occur exactly once, and (when crate licenses
are requested) the dependent-license region must occur exactly once; a
zero or multiple occurrence count makes `update_ebuild` return an error
carrying no text (the function is pure, so the input is never
modified). -/
theorem c1_region_uniqueness (lines : List String) (meta : PackageMetadata)
    (deps : List Crate) (lics : List String) (flag : Bool)
    (h : lines.countP isCratesMarker ≠ 1 ∨ (flag = true ∧ countPairs lines ≠ 1)) :
    ∃ e, update_ebuild lines meta deps lics flag = .error e := by
  obtain ⟨e, he⟩ := updateCore_region_error lines meta deps lics flag h
  refine ⟨e, ?_⟩
  unfold update_ebuild
  rw [he]

theorem c1_region_uniqueness_witness :
    (["CRATES=\"\"", "# Dependent crate licenses", "LICENSE+=\"\"",
        "CRATES=\"\""] : List String).countP isCratesMarker ≠ 1 ∧
      ∃ e, update_ebuild
        ["CRATES=\"\"", "# Dependent crate licenses", "LICENSE+=\"\"", "CRATES=\"\""]
        ⟨"foo", "1.2.3", some "MIT", none, none⟩ [] [] true = .error e :=
  ⟨by decide,
   c1_region_uniqueness _ ⟨"foo", "1.2.3", some "MIT", none, none⟩ [] [] true
     (Or.inl (by decide))⟩

/-- The core passes (steps 1-3) of the patcher are idempotent on their
own output. -/
theorem updateCore_idempotent (lines : List String) (meta : PackageMetadata)
    (deps : List Crate) (lics : List String) (flag : Bool) (T2 : List String)
    (h : updateCore lines meta deps lics flag = .ok T2) :
    updateCore T2 meta deps lics flag = .ok T2 := by
  unfold updateCore at h
  cases flag with
  | false =>
    rw [if_neg (by rintro ⟨h1, _⟩; cases h1)] at h
    cases hcp : cratesPass lines deps with
    | error e =>
      rw [hcp] at h
      cases h
    | ok t2 =>
      rw [hcp] at h
      replace h : (Except.ok t2 : Except String (List String)) = .ok T2 := h
      injection h with h2
      subst h2
      obtain ⟨pre, m, midrest, suf, _, ht, _, _, hp0, hs0⟩ := cratesPass_ok_decomp hcp
      have hc2 : cratesPass t2 deps = .ok t2 := by
        rw [ht]
        exact cratesPass_canonical pre suf deps hp0 hs0
      unfold updateCore
      rw [if_neg (by rintro ⟨h1, _⟩; cases h1), hc2]
      rfl
  | true =>
    by_cases hp : countPairs lines = 1
    · rw [if_neg (by rintro ⟨_, h2⟩; exact h2 hp)] at h
      cases hcp : cratesPass lines deps with
      | error e =>
        rw [hcp] at h
        replace h : (Except.error e : Except String (List String)) = .ok T2 := h
        cases h
      | ok t2 =>
        rw [hcp] at h
        replace h : (match renderAddendumLines meta.license lics with
          | some a => licPass t2 a
          | none => (Except.error "cannot parse dependency license" :
              Except String (List String))) = .ok T2 := h
        cases hra : renderAddendumLines meta.license lics with
        | none =>
          rw [hra] at h
          cases h
        | some add =>
          rw [hra] at h
          replace h : licPass t2 add = .ok T2 := h
          obtain ⟨preC, m, midrest, sufC, hl, ht2, hm, hmidlast, hpre0, hsuf0⟩ :=
            cratesPass_ok_decomp hcp
          obtain ⟨preL, o, segrest, sufL, hlt, hT, hpLne, hpLlast, hpL0, ho, hseg0, hseglast⟩ :=
            licPass_ok_decomp h
          obtain ⟨CCm, CCrest, hCC, hCCm⟩ := CC_head deps
          -- countPairs of the input decomposes around the old crates region
          have hA1 : countPairs lines =
              countPairs preC + countPairs (m :: midrest) + countPairs sufC := by
            rw [hl]
            exact countPairs_three preC m midrest sufC
              (fun x _ => pairBit_right x m (marker_not_opener hm))
              (fun x y hx _ => pairBit_left x y (hmidlast x hx))
          -- countPairs of the once-patched text decomposes around the new region
          have hA2 : countPairs t2 = countPairs preC + countPairs sufC := by
            rw [ht2, hCC]
            rw [countPairs_three preC CCm CCrest sufC
              (fun x _ => pairBit_right x CCm (marker_not_opener hCCm))
              (fun x y hx _ => pairBit_left x y (by
                have := CC_last_ne_comment deps x (by rw [hCC]; exact hx)
                exact this))]
            have := CC_countPairs deps
            rw [hCC] at this
            omega
          have hA3 : countPairs t2 ≤ 1 := by
            rw [hA2, ← hp, hA1]
            omega
          -- the located license pair contributes one pair to the once-patched text
          have e1 : t2 = preL ++ o :: (segrest ++ sufL) := by
            rw [hlt]
            simp
          have e2 : countPairs t2 =
              countPairs (preL ++ [o]) + countPairs (o :: (segrest ++ sufL)) := by
            rw [e1]
            exact countPairs_append_cons preL o (segrest ++ sufL)
          have e3 : countPairs (preL ++ [o]) = 1 := by
            rw [countPairs_concat, hpLlast, hpL0]
            show 0 + pairBit commentLine o = 1
            rw [pairBit_of commentLine o rfl ho]
          have e4 : countPairs (o :: (segrest ++ sufL)) = 0 := by omega
          have hsufL0 : countPairs sufL = 0 := by
            have := countPairs_le_append (o :: segrest) sufL
            simp only [List.cons_append] at this
            omega
          -- the twice-patchable text has exactly one license pair
          obtain ⟨oLB, LBrest, hLB, hoLB⟩ := LB_head add
          have f1 : T2 = preL ++ oLB :: (LBrest ++ sufL) := by
            rw [hT, hLB]
            simp
          have f2 : countPairs T2 =
              countPairs (preL ++ [oLB]) + countPairs (oLB :: (LBrest ++ sufL)) := by
            rw [f1]
            exact countPairs_append_cons preL oLB (LBrest ++ sufL)
          have f3 : countPairs (preL ++ [oLB]) = 1 := by
            rw [countPairs_concat, hpLlast, hpL0]
            show 0 + pairBit commentLine oLB = 1
            rw [pairBit_of commentLine oLB rfl hoLB]
          have f4 : countPairs (oLB :: (LBrest ++ sufL)) = 0 := by
            have h3 := countPairs_three [] oLB LBrest sufL
              (fun x hx => by cases hx)
              (fun x y hx _ => pairBit_left x y
                (LB_last_ne_comment add x (by rw [hLB]; exact hx)))
            simp only [List.nil_append, countPairs_nil] at h3
            have h4 := LB_countPairs add
            rw [hLB] at h4
            simp only [List.cons_append] at h3 ⊢
            omega
          have hT2pairs : countPairs T2 = 1 := by omega
          -- marker counts in the pieces of both decompositions
          have hseg0' : ∀ x ∈ o :: segrest, isCratesMarker x = false :=
            (countP_zero_iff _ _).mp hseg0
          have hcntT2 : t2.countP isCratesMarker =
              preL.countP isCratesMarker + sufL.countP isCratesMarker := by
            rw [hlt, List.countP_append, List.countP_append, hseg0]
            omega
          have hcntT2' : t2.countP isCratesMarker = 1 := by
            rw [ht2, List.countP_append, List.countP_append, hpre0, hsuf0, CC_countP]
          -- locate the canonical crates region inside the twice-patchable text
          have heq : preC ++ (renderCratesLines deps ++ sufC) =
              preL ++ ((o :: segrest) ++ sufL) := by
            have h5 := ht2.symm.trans hlt
            simpa [List.append_assoc] using h5
          have main : ∃ X Y, T2 = X ++ renderCratesLines deps ++ Y ∧
              X.countP isCratesMarker = 0 ∧ Y.countP isCratesMarker = 0 := by
            rcases List.append_eq_append_iff.mp heq with ⟨a2, hpl, hrest⟩ | ⟨c2, hpc, hrest⟩
            · rcases List.append_eq_append_iff.mp hrest with ⟨b2, ha2, hsufC⟩ | ⟨b2, hCCeq, hbs⟩
              · -- the crates region sits inside the license prefix
                refine ⟨preC, b2 ++ (licenseBlock add ++ sufL), ?_, hpre0, ?_⟩
                · rw [hT, hpl, ha2]
                  simp
                · have h6 : sufC.countP isCratesMarker =
                      b2.countP isCratesMarker + (o :: segrest).countP isCratesMarker +
                        sufL.countP isCratesMarker := by
                    rw [hsufC, List.countP_append, List.countP_append]
                    omega
                  rw [List.countP_append, List.countP_append, LB_countP]
                  omega
              · cases b2 with
                | nil =>
                  rw [List.append_nil] at hCCeq
                  refine ⟨preC, licenseBlock add ++ sufL, ?_, hpre0, ?_⟩
                  · rw [hT, hpl, hCCeq]
                    simp
                  · have h7 : o :: (segrest ++ sufL) = sufC := by
                      simpa using hbs
                    have h6 : sufC.countP isCratesMarker =
                        (o :: segrest).countP isCratesMarker + sufL.countP isCratesMarker := by
                      rw [← h7, show o :: (segrest ++ sufL) = (o :: segrest) ++ sufL from rfl,
                        List.countP_append]
                    rw [List.countP_append, LB_countP]
                    omega
                | cons x b3 =>
                  exfalso
                  have hxo : o = x := by
                    have h7 := congrArg List.head? hbs
                    simp at h7
                    exact h7
                  have hxCC : x ∈ renderCratesLines deps := by
                    rw [hCCeq]
                    exact List.mem_append_right a2 (by simp)
                  have := CC_no_opener deps x hxCC
                  rw [hxo] at ho
                  rw [ho] at this
                  exact absurd this (by decide)
            · rcases List.append_eq_append_iff.mp hrest with ⟨d, hc2', hsufL⟩ | ⟨d, hseg, hds⟩
              · -- the crates region sits inside the license suffix
                have hpcnt : preC.countP isCratesMarker =
                    preL.countP isCratesMarker + c2.countP isCratesMarker := by
                  rw [hpc, List.countP_append]
                have hccnt : c2.countP isCratesMarker =
                    (o :: segrest).countP isCratesMarker + d.countP isCratesMarker := by
                  rw [hc2', List.countP_append]
                refine ⟨preL ++ licenseBlock add ++ d, sufC, ?_, ?_, hsuf0⟩
                · rw [hT, hsufL]
                  simp
                · rw [List.countP_append, List.countP_append, LB_countP]
                  omega
              · cases d with
                | nil =>
                  have hsegc : o :: segrest = c2 := by simpa using hseg
                  have hsufLeq : sufL = renderCratesLines deps ++ sufC := by
                    simpa using hds.symm
                  have hpcnt : preC.countP isCratesMarker =
                      preL.countP isCratesMarker + (o :: segrest).countP isCratesMarker := by
                    rw [hpc, ← hsegc, List.countP_append]
                  refine ⟨preL ++ licenseBlock add, sufC, ?_, ?_, hsuf0⟩
                  · rw [hT, hsufLeq]
                    simp
                  · rw [List.countP_append, LB_countP]
                    omega
                | cons x d2 =>
                  exfalso
                  have hxm : CCm = x := by
                    have h7 := congrArg List.head? hds
                    rw [hCC] at h7
                    simp at h7
                    exact h7
                  have hxseg : x ∈ o :: segrest := by
                    rw [hseg]
                    exact List.mem_append_right c2 (by simp)
                  have := hseg0' x hxseg
                  rw [← hxm] at this
                  rw [hCCm] at this
                  exact absurd this (by decide)
          obtain ⟨X, Y, hT2eq, hX, hY⟩ := main
          have hc3 : cratesPass T2 deps = .ok T2 := by
            rw [hT2eq]
            exact cratesPass_canonical X Y deps hX hY
          have hl3 : licPass T2 add = .ok T2 := by
            rw [hT]
            exact licPass_canonical preL sufL add hpLne hpLlast hpL0
          unfold updateCore
          rw [if_neg (by rintro ⟨_, h9⟩; exact h9 hT2pairs), hc3, hra]
          exact hl3
    · rw [if_pos ⟨rfl, hp⟩] at h
      cases h

/-- C2 (counterexample): patching is not unconditionally idempotent on
its own output.  On this artifact a stray git-crate-mapping opener
precedes the dependency-list region, so the removal of the
git-crate-mapping block (spec section 4.3 step 4, no git dependencies
given) swallows the freshly written dependency-list region: the first
update succeeds, and the second update on its output fails because the
dependency-list region no longer occurs. -/
theorem c2_not_idempotent_on_git_removal :
    update_ebuild ["declare -A GIT_CRATES=(", "CRATES=\"\"", ")"]
        ⟨"foo", "1.2.3", some "MIT", none, none⟩ [] [] false = .ok [] ∧
    update_ebuild [] ⟨"foo", "1.2.3", some "MIT", none, none⟩ [] [] false =
      .error "CRATES block must occur exactly once in ebuild" ∧
    update_ebuild [] ⟨"foo", "1.2.3", some "MIT", none, none⟩ [] [] false ≠ .ok [] := by
  refine ⟨by rfl, by rfl, ?_⟩
  intro h
  replace h : (Except.error "CRATES block must occur exactly once in ebuild" :
      Except String (List String)) = .ok [] := h
  cases h

/-- C2 (amended): patching is idempotent on its own output for artifacts
free of git-crate mappings: whenever the dependency list has no git
dependencies, the text has no git-crate-mapping opener line, and
`update_ebuild` succeeds, applying it a second time to the result with
the same metadata, dependency list, dependency licenses and mode returns
the same text. -/
theorem c2_update_idempotent_nogit (lines : List String) (meta : PackageMetadata)
    (deps : List Crate) (lics : List String) (flag : Bool) (T2 : List String)
    (hg : gitCrates deps = []) (h0 : lines.countP isGitOpen = 0)
    (h : update_ebuild lines meta deps lics flag = .ok T2) :
    update_ebuild T2 meta deps lics flag = .ok T2 := by
  have hred : ∀ ls : List String, ls.countP isGitOpen = 0 →
      update_ebuild ls meta deps lics flag = updateCore ls meta deps lics flag := by
    intro ls hls
    unfold update_ebuild
    cases hc : updateCore ls meta deps lics flag with
    | error e => rfl
    | ok t3 =>
      show gitPass t3 (gitCrates deps) = Except.ok t3
      rw [hg]
      exact gitPass_nil_id (updateCore_ok_gitcount hls hc)
  rw [hred lines h0] at h
  have hT2 : T2.countP isGitOpen = 0 := updateCore_ok_gitcount h0 h
  rw [hred T2 hT2]
  exact updateCore_idempotent lines meta deps lics flag T2 h

theorem c2_update_idempotent_nogit_witness :
    gitCrates [Crate.file ⟨"foo", "1", ""⟩] = [] ∧
    (["CRATES=\"", "\told@1", "\"", "# Dependent crate licenses",
        "LICENSE+=\"\""] : List String).countP isGitOpen = 0 ∧
    update_ebuild ["CRATES=\"", "\told@1", "\"", "# Dependent crate licenses", "LICENSE+=\"\""]
        ⟨"foo", "1.2.3", some "Apache-2.0", none, none⟩ [.file ⟨"foo", "1", ""⟩] ["MIT"] true =
      .ok ["CRATES=\"", "\tfoo@1", "\"", "# Dependent crate licenses",
        "LICENSE+=\"", "\tMIT", "\""] ∧
    update_ebuild ["CRATES=\"", "\tfoo@1", "\"", "# Dependent crate licenses",
        "LICENSE+=\"", "\tMIT", "\""]
        ⟨"foo", "1.2.3", some "Apache-2.0", none, none⟩ [.file ⟨"foo", "1", ""⟩] ["MIT"] true =
      .ok ["CRATES=\"", "\tfoo@1", "\"", "# Dependent crate licenses",
        "LICENSE+=\"", "\tMIT", "\""] :=
  ⟨rfl, by decide, by rfl,
   c2_update_idempotent_nogit
     ["CRATES=\"", "\told@1", "\"", "# Dependent crate licenses", "LICENSE+=\"\""]
     ⟨"foo", "1.2.3", some "Apache-2.0", none, none⟩ [.file ⟨"foo", "1", ""⟩] ["MIT"] true
     ["CRATES=\"", "\tfoo@1", "\"", "# Dependent crate licenses", "LICENSE+=\"", "\tMIT", "\""]
     rfl (by decide) (by rfl)⟩
